import Mathlib

/-!
# Shallow embedding of the `chambers` session-state engine

This file embeds, in Lean, the parts of the `chambers` Python package
(`src/chambers/const.py`, `chamber.py`, `house.py`, `senate.py`) that the
verified claims are about, and proves or refutes each claim.

Modelling conventions:

* Python `datetime` instants are modelled as `Int`.  Within a single claim a
  fixed unit is used (seconds for the scheduler claims, minutes-since-a-day
  origin for the Senate text parser, abstract ticks elsewhere); all the code
  ever does with instants is compare them, add fixed offsets, and zero the
  sub-minute part.
* Events are Python dicts with a varying key set; they are modelled by a
  structure of `Option` fields (a `none` field is an absent key).
* Python code that can raise an uncaught exception (`KeyError`, `ValueError`,
  `AttributeError`, `TypeError`) is modelled in the `PyRes` error monad.
* The value stored under the `'type'` key is usually one of the integer
  constants of `const.py`, but `Senate._parse_recess` stores the *tuple*
  `chambers.const.RECESS`; the value space `PyType` has a constructor for
  each shape so that the comparisons `event['type'] in types` and
  `event['type'] == const.CONVENE` can be translated exactly.
-/

namespace Chambers

/-! ## Constants from `chambers/const.py` -/

def OTHER : Int := 0
def CONVENE : Int := 1
def CONVENE_SCHEDULED : Int := 2
def RECONVENE : Int := 3
def ADJOURN : Int := 4
def RECESS_TIME : Int := 5
def RECESS_COC : Int := 6
def RECESS_15M : Int := 7
def MORNING_DEBATE : Int := 10
def DEBATE_BILL : Int := 11
def VOTE_VOICE : Int := 21
def VOTE_RECORDED : Int := 22

/-- `const.ALL_EVENTS` (a tuple of the event-kind integers). -/
def ALL_EVENTS : List Int :=
  [CONVENE, RECONVENE, ADJOURN, RECESS_TIME, RECESS_COC, MORNING_DEBATE,
   DEBATE_BILL, VOTE_VOICE, VOTE_RECORDED]

/-- `const.RECESS = (RECESS_TIME, RECESS_COC)` — a tuple, i.e. a *group* of
kinds, not a kind. -/
def RECESS : List Int := [RECESS_TIME, RECESS_COC]

/-- `const.VOTE = (VOTE_VOICE, VOTE_RECORDED)`. -/
def VOTE : List Int := [VOTE_VOICE, VOTE_RECORDED]

/-! ## Python value shapes -/

/-- Values stored under the `'id'` key of an event dict: House floor actions
store the upstream `unique-id` string, `House._add_end_day` stores the float
`timestamp.timestamp()` (modelled by its `Int` instant). -/
inductive PyId where
  | s (v : String)
  | n (v : Int)
deriving DecidableEq, Repr

/-- Values stored under the `'type'` key: an integer kind constant, or (in
`Senate._parse_recess`) the tuple `const.RECESS`. -/
inductive PyType where
  | k (v : Int)
  | grp (v : List Int)
deriving DecidableEq, Repr

/-- Python `event['type'] in types` where `types` is a tuple/list of ints:
an int member is compared by value, a tuple value is never equal to an int. -/
def tvMem (tv : PyType) (types : List Int) : Bool :=
  match tv with
  | .k v => types.contains v
  | .grp _ => false

/-- Python `event['type'] == c` for an int constant `c`. -/
def tvEq (tv : PyType) (c : Int) : Bool :=
  match tv with
  | .k v => v == c
  | .grp _ => false

/-- The result of running a piece of Python code: a value, or an uncaught
exception (`KeyError` / `ValueError` / `AttributeError` / `TypeError`). -/
inductive PyRes (α : Type) where
  | ok (val : α)
  | exn
deriving DecidableEq, Repr

def PyRes.bind {α β : Type} : PyRes α → (α → PyRes β) → PyRes β
  | .ok v, f => f v
  | .exn, _ => .exn

instance : Monad PyRes where
  pure := .ok
  bind := PyRes.bind

/-- An event dict.  A `none` field models an absent key. -/
structure Event where
  eid : Option PyId := none
  etype : Option PyType := none
  timestamp : Int
  updated : Option Int := none
  actId : Option String := none
  description : String := ""
  source : Option String := none
  srcUrl : Option String := none
  actionItem : Option String := none
deriving DecidableEq, Repr

/-! ## `Chamber._search_events`

The Python method folds over `self._events` keeping the best candidate so
far; an event whose dict has no `'type'` key raises `KeyError`, which is
caught and the event skipped. -/

def searchStep (fwd : Bool) (target : Int) (types : List Int)
    (sel : Option Event) (ev : Event) : Option Event :=
  match ev.etype with
  | none => sel
  | some tv =>
    if tvMem tv types then
      if fwd then
        if ev.timestamp ≥ target then
          match sel with
          | none => some ev
          | some s => if ev.timestamp < s.timestamp then some ev else sel
        else sel
      else
        if ev.timestamp ≤ target then
          match sel with
          | none => some ev
          | some s => if ev.timestamp > s.timestamp then some ev else sel
        else sel
    else sel

/-- `Chamber._search_events(timestamp=target, search_forward=fwd, types=types)`.
A single int passed as `types` is wrapped in a one-element list by the code. -/
def searchEvents (evs : List Event) (target : Int) (fwd : Bool)
    (types : List Int) : Option Event :=
  evs.foldl (searchStep fwd target types) none

/-! ## Derivations (`Chamber.convened`, `Chamber.convenes_at`) -/

/-- Python `Chamber.convened` returns the string `"Unknown"`, `True` or
`False`; a three-valued type. -/
inductive Tri where
  | unknown
  | t
  | f
deriving DecidableEq, Repr

/-- `Chamber.convened` (chamber.py lines 118-137), with `now` the reference
instant used by the two backward searches.  (In the code the third branch
additionally tests `latest_convene['timestamp'] is not None`; every event in
the model carries a timestamp, so that test is always true.) -/
def convened (evs : List Event) (now : Int) : Tri :=
  let c := searchEvents evs now false [CONVENE]
  let a := searchEvents evs now false [ADJOURN]
  match a, c with
  | none, none => .unknown
  | some _, none => .f
  | none, some _ => .t
  | some ae, some ce => if ae.timestamp < ce.timestamp then .t else .f

/-- The derivation table as the specification words it (§4.6): `UNKNOWN` when
both searches are empty, `FALSE` when only the adjourn search hits, `TRUE`
when only the convene search hits, otherwise `TRUE` iff
`C.timestamp > A.timestamp`. -/
def convenedSpec (c a : Option Event) : Tri :=
  match c, a with
  | none, none => .unknown
  | none, some _ => .f
  | some _, none => .t
  | some ce, some ae => if ce.timestamp > ae.timestamp then .t else .f

/-- `Chamber.convenes_at`: forward search for `CONVENE_SCHEDULED`. -/
def convenesAt (evs : List Event) (now : Int) : Option Int :=
  (searchEvents evs now true [CONVENE_SCHEDULED]).map (·.timestamp)

/-- C1.  The derived convened signal agrees, for every event log and
reference instant, with the specification's four-case table over the two
backward search results. -/
theorem c1_convened_derivation (evs : List Event) (now : Int) :
    convened evs now
      = convenedSpec (searchEvents evs now false [CONVENE])
          (searchEvents evs now false [ADJOURN]) := by
  unfold convened convenedSpec
  cases searchEvents evs now false [CONVENE] <;>
    cases searchEvents evs now false [ADJOURN] <;>
      simp [GT.gt]

/-! ## Scheduler (`Chamber._set_next_update`, refresh tails)

Instants here are in seconds.  `next_update` is an `Option Int` because
`Senate._load` executes `self._next_update = self._set_next_update()` and the
method returns `None` on every branch except the convened one. -/

/-- `datetime.replace(second=0, microsecond=0)`: zero the sub-minute part. -/
def zeroSeconds (t : Int) : Int := t - t % 60

structure ChamberState where
  events : List Event
  updated : Int
  nextUpdate : Option Int
deriving DecidableEq, Repr

/-- Python truthiness of the `convened` property: the string `"Unknown"` and
`True` are truthy, `False` is falsy. -/
def triTruthy : Tri → Bool
  | .f => false
  | _ => true

/-- `Chamber._set_next_update` (chamber.py lines 204-232).  Returns the state
after the method runs together with the method's Python return value.  On the
convened branch the code *returns* the computed instant without assigning
`self._next_update`; on every other branch it assigns and returns `None`. -/
def setNextUpdate (st : ChamberState) (now : Int) : ChamberState × Option Int :=
  if triTruthy (convened st.events now) then
    (st, some (zeroSeconds (st.updated + 120)))
  else
    match convenesAt st.events now with
    | some ca =>
      let target := ca - 600
      if target < now then ({ st with nextUpdate := some (st.updated + 60) }, none)
      else ({ st with nextUpdate := some target }, none)
    | none => ({ st with nextUpdate := some (st.updated + 600) }, none)

/-- Tail of a House refresh: `House._load` ends with
`self._updated = datetime.now(...)`, and every branch of `House.update` then
calls `self._set_next_update()` discarding its return value. -/
def houseFinishRefresh (st : ChamberState) (now : Int) : ChamberState :=
  let st1 : ChamberState := { st with updated := now }
  (setNextUpdate st1 now).1

/-- Tail of `Senate._load` (senate.py lines 143-149):
`self._updated = datetime.now(...)` followed by
`self._next_update = self._set_next_update()`. -/
def senateFinishLoad (st : ChamberState) (now : Int) : ChamberState :=
  let st1 : ChamberState := { st with updated := now }
  let r := setNextUpdate st1 now
  { r.1 with nextUpdate := r.2 }

/-- The concrete failing refresh for C2: a chamber whose log holds a single
`CONVENE` at instant 600, previous `next_update = 0`, refreshed at
`now = 1000`. -/
def c2ConveneEv : Event := { etype := some (.k CONVENE), timestamp := 600 }

def c2State : ChamberState :=
  { events := [c2ConveneEv], updated := 0, nextUpdate := some 0 }

/-- C2 (code bug).  At the failing input the chamber is convened and the
Senate load tail does set `next_update = updated + 2 min` (seconds zeroed,
here `zeroSeconds (1000 + 120) = 1080`), but the House refresh leaves
`next_update` at its stale previous value `0`: the convened branch of
`_set_next_update` returns the new instant instead of assigning it, and
`House.update` discards the return value. -/
theorem c2_house_next_update_not_set :
    convened c2State.events 1000 = .t
      ∧ (houseFinishRefresh c2State 1000).updated = 1000
      ∧ (houseFinishRefresh c2State 1000).nextUpdate = some 0
      ∧ (houseFinishRefresh c2State 1000).nextUpdate
          ≠ some (zeroSeconds ((houseFinishRefresh c2State 1000).updated + 120))
      ∧ (senateFinishLoad c2State 1000).nextUpdate = some 1080 := by
  refine ⟨by decide, by decide, by decide, by decide, by decide⟩

/-! ## House parser and merge (`house.py`) -/

/-- `startsOf pat s`: `pat` is a prefix of `s` (character lists). -/
def startsOf : List Char → List Char → Bool
  | [], _ => true
  | _ :: _, [] => false
  | p :: ps, c :: cs => p == c && startsOf ps cs

/-- `subList pat s`: `pat` occurs as a contiguous sublist of `s`. -/
def subList (pat : List Char) : List Char → Bool
  | [] => startsOf pat []
  | c :: cs => startsOf pat (c :: cs) || subList pat cs

/-- Python `pat in s` for strings. -/
def pyIn (pat s : String) : Bool := subList pat.toList s.toList

/-- One `floor_action` element of a House journal, with its attributes and
the already-parsed `update-date-time` / `action_time@for-search` instants. -/
structure FloorAction where
  actId : String
  uniqueId : String
  updateDt : Int
  actionTime : Int
  description : String
  actionItem : Option String := none
deriving DecidableEq, Repr

/-- The `'type'` / `'action_item'` assignment chain of
`House._add_floor_action` (house.py lines 286-325).  For `H20100` with an
unrecognised description no `'type'` key is assigned; the bare string literal
in the final `H61000` branch is always truthy, so every unrecognised `H61000`
becomes `RECESS_15M`; any act id other than the four compared via
`event['act-id']` reaches `elif event['act_id'] == 'H35000'`, which raises
`KeyError` because the event dict has no `act_id` key (it is spelled
`act-id`). -/
def houseEventExtras (fa : FloorAction) : PyRes (Option PyType × Option String) :=
  if fa.actId == "H20100" then
    if pyIn "The House convened, returning from a recess" fa.description then
      .ok (some (.k RECONVENE), none)
    else if pyIn "The House convened, starting a new legislative day." fa.description then
      .ok (some (.k CONVENE), none)
    else
      .ok (none, none)
  else if fa.actId == "H61000" then
    if pyIn "The House adjourned." fa.description then
      .ok (some (.k ADJOURN), none)
    else if pyIn "The Speaker announced that the House do now adjourn pursuant to clause 13 of Rule I" fa.description then
      .ok (some (.k ADJOURN), none)
    else if pyIn "The Speaker announced that the House do now recess. The next meeting is scheduled for" fa.description then
      .ok (some (.k RECESS_TIME), none)
    else if fa.description == "The Speaker announced that the House do now recess. The next meeting is subject to the call of the Chair." then
      .ok (some (.k RECESS_COC), none)
    else
      .ok (some (.k RECESS_15M), none)
  else if fa.actId == "H8D000" then
    if pyIn "MORNING-HOUR DEBATE" fa.description then
      .ok (some (.k MORNING_DEBATE), none)
    else if pyIn "DEBATE - " fa.description then
      .ok (some (.k DEBATE_BILL), fa.actionItem)
    else
      .ok (some (.k OTHER), none)
  else if fa.actId == "H37100" then
    .ok (some (.k VOTE_RECORDED), fa.actionItem)
  else
    .exn

/-- The event dict built by `House._add_floor_action` when it decides to add. -/
def mkHouseEvent (fa : FloorAction) : PyRes Event := do
  let xt ← houseEventExtras fa
  .ok { eid := some (.s fa.uniqueId), actId := some fa.actId,
        etype := xt.1, timestamp := fa.actionTime,
        updated := some fa.updateDt, description := fa.description,
        actionItem := xt.2 }

/-- The deduplication loop of `House._add_floor_action` (house.py lines
245-270): scan for an event whose `'id'` equals the action's `unique-id`;
on a match, add exactly when the action's `update-date-time` is strictly
newer, otherwise return `False` immediately; with no match (or an empty log)
add.  Reading `event['id']` or `event['updated']` of a dict lacking the key
raises `KeyError`.  An `'id'` that is a float (an end-of-day event) never
equals the string `unique-id`. -/
def houseScan (fa : FloorAction) : List Event → PyRes Bool
  | [] => .ok true
  | ev :: rest =>
    match ev.eid with
    | none => .exn
    | some pid =>
      if pid = .s fa.uniqueId then
        match ev.updated with
        | none => .exn
        | some u => if fa.updateDt > u then .ok true else .ok false
      else houseScan fa rest

/-- `House._add_floor_action` (house.py lines 238-328).  The replacement
indices collected in `del_list` are **never popped** in the House version, so
on a newer-update match the new event is appended while the old one stays in
the log.  Returns the new log and the method's return value. -/
def houseAdd (evs : List Event) (fa : FloorAction) : PyRes (List Event × Bool) := do
  let doAdd ← houseScan fa evs
  if doAdd then
    let ev ← mkHouseEvent fa
    .ok (evs ++ [ev], true)
  else
    .ok (evs, false)

/-- `House._add_end_day` (house.py lines 219-236): unconditionally append a
`CONVENE_SCHEDULED` event at the `next-legislative-day-convenes` instant,
with `'id'` set to the timestamp's epoch value.  The method returns `None`. -/
def houseAddEndDay (evs : List Event) (nextConvenes : Int) : List Event :=
  evs ++ [{ eid := some (.n nextConvenes), etype := some (.k CONVENE_SCHEDULED),
            timestamp := nextConvenes }]

/-- A child of the `floor_actions` element of one journal document. -/
inductive HouseEntry where
  | ldf (nextConvenes : Int)
  | fa (action : FloorAction)
deriving DecidableEq, Repr

/-- The dispatch loop of `House._load_xml` (house.py lines 194-217).
`legislative_day_finished` children go through `_add_end_day`; since that
method returns `None` (falsy), `items` is not incremented and the `only_eod`
early return is never taken.  `floor_action` children are dispatched **only**
for act ids `H20100`, `H61000` and `H8D000`; every other act id (including
`H37100` and `H35000`) is logged as skipped. -/
def houseLoadXmlGo (onlyEod : Bool) :
    List HouseEntry → List Event → Nat → PyRes (List Event × Nat)
  | [], evs, items => .ok (evs, items)
  | .ldf nc :: rest, evs, items =>
      houseLoadXmlGo onlyEod rest (houseAddEndDay evs nc) items
  | .fa a :: rest, evs, items =>
      if (a.actId == "H20100" || a.actId == "H61000" || a.actId == "H8D000")
          && !onlyEod then do
        let r ← houseAdd evs a
        houseLoadXmlGo onlyEod rest r.1 (items + if r.2 then 1 else 0)
      else houseLoadXmlGo onlyEod rest evs items

/-- Merging one parsed House batch into a log (`_load_xml` in its normal,
non-`only_eod` mode). -/
def houseMergeBatch (entries : List HouseEntry) (evs : List Event) :
    PyRes (List Event) :=
  (houseLoadXmlGo false entries evs 0).bind fun r => .ok r.1

/-! ### C3: the House merge does not remove the superseded event -/

/-- Existing log entry for the C3 failing input: id `"A"`, `updated = 10`. -/
def c3Old : Event :=
  { eid := some (.s "A"), etype := some (.k CONVENE), timestamp := 100,
    updated := some 10, actId := some "H20100",
    description := "The House convened, starting a new legislative day." }

/-- The incoming floor action for C3: same id `"A"`, strictly newer
`updated = 20`. -/
def c3New : FloorAction :=
  { actId := "H20100", uniqueId := "A", updateDt := 20, actionTime := 100,
    description := "The House convened, starting a new legislative day." }

/-- C3 (code bug).  Merging a floor action whose `unique-id` matches an
existing event and whose `updated` is strictly newer *appends* the new record
while the old one stays in the log (the indices collected in `del_list` are
never popped), so after the merge two events share the id `"A"` — the claimed
removal and the unique-id invariant both fail. -/
theorem c3_house_merge_duplicate_id :
    houseAdd [c3Old] c3New
      = .ok ([c3Old,
              { eid := some (.s "A"), etype := some (.k CONVENE),
                timestamp := 100, updated := some 20, actId := some "H20100",
                description := "The House convened, starting a new legislative day." }],
             true)
      ∧ (houseAdd [c3Old] c3New ≠ .ok ([
              { eid := some (.s "A"), etype := some (.k CONVENE),
                timestamp := 100, updated := some 20, actId := some "H20100",
                description := "The House convened, starting a new legislative day." }],
             true)) := by
  refine ⟨by decide, by decide⟩

/-! ### C7: vote act codes never reach the merge -/

/-- A journal `floor_action` with act code `H37100` (recorded vote). -/
def c7Vote : FloorAction :=
  { actId := "H37100", uniqueId := "V1", updateDt := 5, actionTime := 300,
    description := "On passage Passed by recorded vote",
    actionItem := some "H.R. 1234" }

/-- A journal `floor_action` with act code `H35000` (voice vote). -/
def c7Voice : FloorAction :=
  { actId := "H35000", uniqueId := "V2", updateDt := 6, actionTime := 400,
    description := "On agreeing to the resolution Agreed to by voice vote",
    actionItem := some "H. Res. 99" }

/-- C7 counterexample.  A House journal whose only `floor_action` child has
act code `H37100` produces **zero** events (and likewise for `H35000`): the
dispatch loop of `_load_xml` only forwards `H20100`, `H61000` and `H8D000`,
so no `VOTE_RECORDED` event is ever produced, contradicting the claim. -/
theorem c7_counterexample_votes_skipped :
    houseMergeBatch [.fa c7Vote] [] = .ok []
      ∧ houseMergeBatch [.fa c7Voice] [] = .ok [] := by
  refine ⟨by decide, by decide⟩

/-- C7 as amended.  `floor_action` children with act codes `H37100` and
`H35000` are skipped by the loader (only `H20100`, `H61000`, `H8D000` are
dispatched to the merge); the merge routine itself contains a branch that
would tag an `H37100` action as `VOTE_RECORDED` carrying its `action_item`,
while the `H35000` branch reads the missing `act_id` key and would raise
`KeyError` if it were ever reached. -/
theorem c7_vote_actions_skipped (a : FloorAction) :
    (a.actId = "H37100" ∨ a.actId = "H35000" →
        ∀ evs n, houseLoadXmlGo false [.fa a] evs n = .ok (evs, n))
      ∧ (a.actId = "H37100" →
          mkHouseEvent a
            = .ok { eid := some (.s a.uniqueId), actId := some a.actId,
                    etype := some (.k VOTE_RECORDED), timestamp := a.actionTime,
                    updated := some a.updateDt, description := a.description,
                    actionItem := a.actionItem })
      ∧ (a.actId = "H35000" → mkHouseEvent a = .exn) := by
  refine ⟨?_, ?_, ?_⟩
  · rintro (h | h) evs n <;>
      simp [houseLoadXmlGo, h]
  · intro h
    simp [mkHouseEvent, houseEventExtras, h, bind, PyRes.bind]
  · intro h
    simp [mkHouseEvent, houseEventExtras, h, bind, PyRes.bind]

/-- Witness for `c7_vote_actions_skipped` at the concrete vote actions. -/
theorem c7_witness :
    houseLoadXmlGo false [.fa c7Vote] [] 0 = .ok ([], 0)
      ∧ mkHouseEvent c7Voice = .exn :=
  ⟨(c7_vote_actions_skipped c7Vote).1 (Or.inl rfl) [] 0,
   (c7_vote_actions_skipped c7Voice).2.2 rfl⟩

/-! ## Senate merge (`Senate._add_floor_action`, senate.py lines 254-295)

The Python loop scans for the *first* event at the new action's exact
timestamp and breaks.  If the existing event is a `CONVENE` and the new one a
`CONVENE_SCHEDULED` the new action is discarded; otherwise the new action is
appended and the matched index popped (append happens before the pop, and the
popped index is below the appended one, so popping after appending removes
exactly the matched old event).  The recursive definition below produces the
same list: a head match with a non-blocking type yields `rest ++ [fa]`, which
is `(old ++ [fa])` with the matched head removed. -/

/-- The short-circuit test
`existing['type'] == CONVENE and new['type'] == CONVENE_SCHEDULED`; reading a
missing `'type'` key raises `KeyError` (and the new action's key is only read
when the existing event is a `CONVENE`). -/
def senateTypeBlocked (ev fa : Event) : PyRes Bool :=
  match ev.etype with
  | none => .exn
  | some t =>
    if tvEq t CONVENE then
      match fa.etype with
      | none => .exn
      | some t' => .ok (tvEq t' CONVENE_SCHEDULED)
    else .ok false

/-- `Senate._add_floor_action`. -/
def senateAdd : List Event → Event → PyRes (List Event)
  | [], fa => .ok [fa]
  | ev :: rest, fa =>
    if ev.timestamp = fa.timestamp then do
      let blocked ← senateTypeBlocked ev fa
      if blocked then .ok (ev :: rest) else .ok (rest ++ [fa])
    else do
      let r ← senateAdd rest fa
      .ok (ev :: r)

/-- Merging a parsed Senate batch: `Senate._load_xml` collects its events and
adds each in order. -/
def senateMergeBatch : List Event → List Event → PyRes (List Event)
  | [], evs => .ok evs
  | e :: rest, evs => (senateAdd evs e).bind (senateMergeBatch rest)

/-- Timestamp uniqueness: no two events of the log share a timestamp. -/
def tsNodup (evs : List Event) : Prop := (evs.map (·.timestamp)).Nodup

instance (evs : List Event) : Decidable (tsNodup evs) := by
  unfold tsNodup; infer_instance

/-- Adding to a log with no event at the action's timestamp appends. -/
lemma senateAdd_nomatch {evs : List Event} {fa : Event}
    (h : ∀ ev ∈ evs, ev.timestamp ≠ fa.timestamp) :
    senateAdd evs fa = .ok (evs ++ [fa]) := by
  induction evs with
  | nil => rfl
  | cons ev rest ih =>
    have hne : ev.timestamp ≠ fa.timestamp := h ev (by simp)
    simp only [senateAdd, if_neg hne,
      ih fun e he => h e (by simp [he]), bind, PyRes.bind, List.cons_append]

/-- A prefix with no timestamp match passes through `senateAdd` unchanged. -/
lemma senateAdd_prependNomatch {pre : List Event} {fa : Event}
    (h : ∀ p ∈ pre, p.timestamp ≠ fa.timestamp) (l : List Event) :
    senateAdd (pre ++ l) fa
      = (senateAdd l fa).bind fun r => .ok (pre ++ r) := by
  induction pre with
  | nil =>
    simp only [List.nil_append]
    cases senateAdd l fa <;> simp [PyRes.bind]
  | cons p ps ih =>
    have hne : p.timestamp ≠ fa.timestamp := h p (by simp)
    have ih' := ih fun q hq => h q (by simp [hq])
    simp only [List.cons_append, senateAdd, if_neg hne, bind]
    simp only [List.append_eq]
    rw [ih']
    cases senateAdd l fa <;> simp [PyRes.bind]

/-- Every timestamp of a merged log is a timestamp of the old log or the new
action's. -/
lemma senateAdd_ts_mem {evs : List Event} {fa : Event} {r : List Event}
    (h : senateAdd evs fa = .ok r) :
    ∀ t ∈ r.map (·.timestamp),
      t ∈ evs.map (·.timestamp) ∨ t = fa.timestamp := by
  induction evs generalizing r with
  | nil =>
    simp only [senateAdd, PyRes.ok.injEq] at h
    subst h; simp
  | cons ev rest ih =>
    by_cases hts : ev.timestamp = fa.timestamp
    · simp only [senateAdd, if_pos hts, bind] at h
      cases hb : senateTypeBlocked ev fa with
      | exn => rw [hb] at h; exact absurd h (by simp [PyRes.bind])
      | ok b =>
        rw [hb] at h
        cases b with
        | true =>
          simp only [PyRes.bind, if_pos, PyRes.ok.injEq] at h
          subst h; intro t ht; exact Or.inl ht
        | false =>
          simp only [PyRes.bind, Bool.false_eq_true, if_false,
            PyRes.ok.injEq] at h
          subst h
          intro t ht
          simp only [List.map_append, List.mem_append, List.map_cons,
            List.mem_cons, List.map_nil, List.not_mem_nil, or_false] at ht ⊢
          rcases ht with ht | ht
          · exact Or.inl (Or.inr ht)
          · exact Or.inr ht
    · simp only [senateAdd, if_neg hts, bind] at h
      cases hr : senateAdd rest fa with
      | exn => rw [hr] at h; exact absurd h (by simp [PyRes.bind])
      | ok r' =>
        rw [hr] at h
        simp only [PyRes.bind, PyRes.ok.injEq] at h
        subst h
        intro t ht
        simp only [List.map_cons, List.mem_cons] at ht ⊢
        rcases ht with ht | ht
        · exact Or.inl (Or.inl ht)
        · rcases ih hr t ht with h' | h'
          · exact Or.inl (Or.inr h')
          · exact Or.inr h'

/-- The merge preserves timestamp uniqueness. -/
lemma senateAdd_nodup {evs : List Event} {fa : Event} {r : List Event}
    (h : senateAdd evs fa = .ok r) (hnd : tsNodup evs) : tsNodup r := by
  induction evs generalizing r with
  | nil =>
    simp only [senateAdd, PyRes.ok.injEq] at h
    subst h; simp [tsNodup]
  | cons ev rest ih =>
    simp only [tsNodup, List.map_cons, List.nodup_cons] at hnd
    by_cases hts : ev.timestamp = fa.timestamp
    · simp only [senateAdd, if_pos hts, bind] at h
      cases hb : senateTypeBlocked ev fa with
      | exn => rw [hb] at h; exact absurd h (by simp [PyRes.bind])
      | ok b =>
        rw [hb] at h
        cases b with
        | true =>
          simp only [PyRes.bind, if_pos, PyRes.ok.injEq] at h
          subst h
          simp only [tsNodup, List.map_cons, List.nodup_cons]
          exact hnd
        | false =>
          simp only [PyRes.bind, Bool.false_eq_true, if_false,
            PyRes.ok.injEq] at h
          subst h
          simp only [tsNodup, List.map_append, List.map_cons, List.map_nil]
          rw [List.nodup_append]
          refine ⟨hnd.2, List.nodup_singleton _, ?_⟩
          intro t ht
          simp only [List.mem_singleton]
          intro he
          subst he
          exact hnd.1 (hts ▸ ht)
    · simp only [senateAdd, if_neg hts, bind] at h
      cases hr : senateAdd rest fa with
      | exn => rw [hr] at h; exact absurd h (by simp [PyRes.bind])
      | ok r' =>
        rw [hr] at h
        simp only [PyRes.bind, PyRes.ok.injEq] at h
        subst h
        simp only [tsNodup, List.map_cons, List.nodup_cons]
        refine ⟨?_, ih hr hnd.2⟩
        intro hmem
        rcases senateAdd_ts_mem hr ev.timestamp hmem with h' | h'
        · exact hnd.1 h'
        · exact hts h'

/-- C4.  The Senate merge: with no event at the new action's timestamp the
action is appended; at the first event sharing the exact timestamp, a
`CONVENE` blocks an incoming `CONVENE_SCHEDULED` (log unchanged) and every
other combination removes the old event and appends the new one; and the
merge preserves the invariant that at most one event exists at any given
timestamp. -/
theorem c4_senate_merge_timestamp_unique (evs : List Event) (fa : Event) :
    ((∀ ev ∈ evs, ev.timestamp ≠ fa.timestamp) →
        senateAdd evs fa = .ok (evs ++ [fa]))
      ∧ (∀ pre ev post, evs = pre ++ ev :: post →
          (∀ p ∈ pre, p.timestamp ≠ fa.timestamp) →
          ev.timestamp = fa.timestamp →
          ∀ tev tfa, ev.etype = some tev → fa.etype = some tfa →
            ((tvEq tev CONVENE && tvEq tfa CONVENE_SCHEDULED) = true →
                senateAdd evs fa = .ok evs)
              ∧ ((tvEq tev CONVENE && tvEq tfa CONVENE_SCHEDULED) = false →
                  senateAdd evs fa = .ok (pre ++ post ++ [fa])))
      ∧ (∀ r, senateAdd evs fa = .ok r → tsNodup evs → tsNodup r) := by
  refine ⟨fun h => senateAdd_nomatch h, ?_, fun r h hnd => senateAdd_nodup h hnd⟩
  rintro pre ev post rfl hpre hts tev tfa hev hfa
  have hblocked : senateTypeBlocked ev fa
      = .ok (tvEq tev CONVENE && tvEq tfa CONVENE_SCHEDULED) := by
    simp only [senateTypeBlocked, hev, hfa]
    by_cases hc : tvEq tev CONVENE = true
    · simp [hc]
    · have hc' : tvEq tev CONVENE = false := by simpa using hc
      simp [hc']
  constructor
  · intro hb
    rw [senateAdd_prependNomatch hpre]
    simp only [senateAdd, if_pos hts, bind, hblocked, hb, PyRes.bind,
      if_pos]
  · intro hb
    rw [senateAdd_prependNomatch hpre]
    simp only [senateAdd, if_pos hts, bind, hblocked, hb, PyRes.bind,
      Bool.false_eq_true, if_false, List.append_assoc]

/-- Concrete events for the C4/C5 witnesses. -/
def wConv10 : Event := { etype := some (.k CONVENE), timestamp := 10 }
def wSched10 : Event := { etype := some (.k CONVENE_SCHEDULED), timestamp := 10 }
def wAdj20 : Event := { etype := some (.k ADJOURN), timestamp := 20 }

/-- Witness for `c4_senate_merge_timestamp_unique`: an append with no
timestamp match, a blocked same-instant `CONVENE_SCHEDULED`, a same-instant
replacement, and preservation of timestamp uniqueness. -/
theorem c4_witness :
    senateAdd [wAdj20] wConv10 = .ok [wAdj20, wConv10]
      ∧ senateAdd [wConv10] wSched10 = .ok [wConv10]
      ∧ senateAdd [wSched10] wConv10 = .ok [wConv10]
      ∧ tsNodup [wAdj20, wConv10] :=
  ⟨(c4_senate_merge_timestamp_unique [wAdj20] wConv10).1 (by decide),
   ((c4_senate_merge_timestamp_unique [wConv10] wSched10).2.1
      [] wConv10 [] rfl (by simp) (by decide) (.k 1) (.k 2) rfl rfl).1
     (by decide),
   ((c4_senate_merge_timestamp_unique [wSched10] wConv10).2.1
      [] wSched10 [] rfl (by simp) (by decide) (.k 2) (.k 1) rfl rfl).2
     (by decide),
   (c4_senate_merge_timestamp_unique [wAdj20] wConv10).2.2
     [wAdj20, wConv10]
     ((c4_senate_merge_timestamp_unique [wAdj20] wConv10).1 (by decide))
     (by decide)⟩

/-! ### C5: idempotence of ingest -/

/-- The event `House._add_end_day` appends for
`next-legislative-day-convenes = 500`. -/
def c5EndDayEv : Event :=
  { eid := some (.n 500), etype := some (.k CONVENE_SCHEDULED), timestamp := 500 }

/-- C5 counterexample.  Merging the House batch
`[legislative_day_finished @ 500]` into the empty log once yields one
end-of-day `CONVENE_SCHEDULED` event; merging the same batch a second time
appends a second, identical copy — `_add_end_day` appends unconditionally —
so ingest is not idempotent as claimed. -/
theorem c5_counterexample_end_day_not_idempotent :
    houseMergeBatch [.ldf 500] [] = .ok [c5EndDayEv]
      ∧ houseMergeBatch [.ldf 500] [c5EndDayEv] = .ok [c5EndDayEv, c5EndDayEv]
      ∧ [c5EndDayEv, c5EndDayEv] ≠ [c5EndDayEv] :=
  ⟨by decide, by decide, by decide⟩

/-- Re-adding an event to the singleton log holding it leaves the log
unchanged (the event must carry a `'type'` key, as every parsed Senate event
does, or the same-timestamp comparison raises `KeyError`). -/
lemma senateAdd_self_single {fa : Event} {tfa : PyType}
    (hty : fa.etype = some tfa) : senateAdd [fa] fa = .ok [fa] := by
  simp only [senateAdd, if_pos rfl, bind, senateTypeBlocked, hty]
  cases tfa with
  | k v =>
    by_cases hv : v = 1
    · subst hv
      simp [tvEq, CONVENE, CONVENE_SCHEDULED, PyRes.bind]
    · simp [tvEq, CONVENE, hv, PyRes.bind]
  | grp g => simp [tvEq, PyRes.bind]

/-- Single-event idempotence of the Senate merge: re-merging one parsed
event into the result of merging it once returns that result unchanged,
provided the log's timestamps are pairwise distinct (the maintained
invariant) and the event carries a `'type'` key (every parsed Senate event
does).  Generalised to whole batches in `c5_senate_batch_idempotent`. -/
lemma senateAdd_idempotent (evs : List Event) (fa : Event)
    (tfa : PyType) (hty : fa.etype = some tfa) (hnd : tsNodup evs)
    (evs1 : List Event) (h1 : senateAdd evs fa = .ok evs1) :
    senateAdd evs1 fa = .ok evs1 := by
  induction evs generalizing evs1 with
  | nil =>
    simp only [senateAdd, PyRes.ok.injEq] at h1
    subst h1
    exact senateAdd_self_single hty
  | cons ev rest ih =>
    simp only [tsNodup, List.map_cons, List.nodup_cons] at hnd
    by_cases hts : ev.timestamp = fa.timestamp
    · simp only [senateAdd, if_pos hts, bind] at h1
      cases hb : senateTypeBlocked ev fa with
      | exn => rw [hb] at h1; exact absurd h1 (by simp [PyRes.bind])
      | ok b =>
        rw [hb] at h1
        cases b with
        | true =>
          simp only [PyRes.bind, if_pos, PyRes.ok.injEq] at h1
          subst h1
          simp [senateAdd, if_pos hts, bind, hb, PyRes.bind]
        | false =>
          simp only [PyRes.bind, Bool.false_eq_true, if_false,
            PyRes.ok.injEq] at h1
          subst h1
          have hnom : ∀ p ∈ rest, p.timestamp ≠ fa.timestamp := by
            intro p hp hcon
            apply hnd.1
            rw [hts, ← hcon]
            exact List.mem_map_of_mem _ hp
          rw [senateAdd_prependNomatch hnom [fa],
            senateAdd_self_single hty]
          simp [PyRes.bind]
    · simp only [senateAdd, if_neg hts, bind] at h1
      cases hr : senateAdd rest fa with
      | exn => rw [hr] at h1; exact absurd h1 (by simp [PyRes.bind])
      | ok r =>
        rw [hr] at h1
        simp only [PyRes.bind, PyRes.ok.injEq] at h1
        subst h1
        have ihr := ih hnd.2 r hr
        simp only [senateAdd, if_neg hts, bind]
        rw [ihr]
        simp [PyRes.bind]

/-! ### Batch idempotence of the Senate merge

The merge of a whole parsed batch is characterised by a *keep/tail* normal
form: the events of the original log whose slot blocks every batch event at
their timestamp survive in place (`keepF`), and each timestamp touched by
the batch retains at most its final batch survivor, appended at the end in
order of final acceptance (`tailT`, a fold over the batch).  Re-merging the
batch reproduces the same normal form. -/

/-- `event['type'] == const.CONVENE` for an event value. -/
def isC (x : Event) : Bool :=
  match x.etype with
  | some tv => tvEq tv CONVENE
  | none => false

/-- `event['type'] == const.CONVENE_SCHEDULED` for an event value. -/
def isS (x : Event) : Bool :=
  match x.etype with
  | some tv => tvEq tv CONVENE_SCHEDULED
  | none => false

/-- The supersession test of the Senate merge: an existing `CONVENE` blocks
an incoming `CONVENE_SCHEDULED`. -/
def blockedB (x e : Event) : Bool := isC x && isS e

/-- `blockedB` lifted to an optional slot holder (an empty slot never
blocks). -/
def blockedO (h : Option Event) (e : Event) : Bool :=
  match h with
  | some x => blockedB x e
  | none => false

/-- First alternative of two optional values. -/
def oget (o p : Option Event) : Option Event :=
  match o with
  | some x => some x
  | none => p

def isCopt (o : Option Event) : Bool :=
  match o with
  | some x => isC x
  | none => false

/-- The (first) event of a log at an exact timestamp. -/
def findTs (L : List Event) (t : Int) : Option Event :=
  L.find? fun y => y.timestamp == t

/-- An original event survives the whole batch `P` in place iff every batch
event at its timestamp is blocked by it. -/
def kCond (P : List Event) (x : Event) : Bool :=
  P.all fun e => (e.timestamp != x.timestamp) || blockedB x e

/-- The originals of `X` surviving batch `P` in place. -/
def keepF (X P : List Event) : List Event := X.filter (kCond P)

/-- One step of the batch-survivor tail: the current holder of the incoming
event's slot is the accumulated tail entry if present, else the base log's
event (`g`); a blocked event leaves the tail unchanged, otherwise the slot's
entry is replaced and moved to the end. -/
def tailStepG (g : Int → Option Event) (U : List Event) (e : Event) :
    List Event :=
  if blockedO (oget (findTs U e.timestamp) (g e.timestamp)) e then U
  else U.filter (fun y => y.timestamp != e.timestamp) ++ [e]

/-- The batch-survivor tail of merging `B` into `X`. -/
def tailT (X B : List Event) : List Event := B.foldl (tailStepG (findTs X)) []

/-- Projection of the tail fold to one slot: the entry at timestamp `t`. -/
def slotStep (g0 : Option Event) (t : Int) (en : Option Event) (e : Event) :
    Option Event :=
  if e.timestamp == t then
    (if blockedO (oget en g0) e then en else some e)
  else en

/-- The holder automaton of one slot. -/
def runStep (t : Int) (h : Option Event) (e : Event) : Option Event :=
  if e.timestamp == t then (if blockedO h e then h else some e) else h

/-- The final holder of slot `t`, starting from `g0`, over batch `B`. -/
def runG (g0 : Option Event) (B : List Event) (t : Int) : Option Event :=
  B.foldl (runStep t) g0

/-- No event is simultaneously a `CONVENE` and a `CONVENE_SCHEDULED`. -/
lemma isC_and_isS (x : Event) : (isC x && isS x) = false := by
  unfold isC isS
  cases hx : x.etype with
  | none => rfl
  | some tv =>
    cases tv with
    | k v =>
      by_cases hv : v = 1
      · subst hv; rfl
      · simp [tvEq, CONVENE, hv]
    | grp g => rfl

/-- A `CONVENE_SCHEDULED` event is not a `CONVENE`. -/
lemma isS_not_isC {e : Event} (h : isS e = true) : isC e = false := by
  unfold isS at h
  unfold isC
  cases he : e.etype with
  | none => rfl
  | some tv =>
    rw [he] at h
    cases tv with
    | k v =>
      simp only [tvEq, CONVENE_SCHEDULED] at h
      have hv : v = 2 := by
        by_contra hne
        simp [hne] at h
      subst hv
      rfl
    | grp g => simp [tvEq] at h

/-- A `CONVENE` event carries a `'type'` key. -/
lemma isC_typed {x : Event} (h : isC x = true) : x.etype.isSome := by
  unfold isC at h
  cases hx : x.etype with
  | none => rw [hx] at h; exact absurd h (by simp)
  | some tv => simp

/-- On typed arguments the merge's supersession test computes `blockedB`. -/
lemma senateTypeBlocked_eq {x e : Event} {tx te : PyType}
    (hx : x.etype = some tx) (he : e.etype = some te) :
    senateTypeBlocked x e = .ok (blockedB x e) := by
  unfold senateTypeBlocked blockedB isC isS
  rw [hx, he]
  by_cases hc : tvEq tx CONVENE = true
  · simp [hc]
  · have hc' : tvEq tx CONVENE = false := by simpa using hc
    simp [hc']

/-- A successful supersession test means the existing event was typed. -/
lemma senateTypeBlocked_ok_typed {x e : Event} {b : Bool}
    (h : senateTypeBlocked x e = .ok b) : x.etype.isSome := by
  unfold senateTypeBlocked at h
  cases hx : x.etype with
  | none => rw [hx] at h; exact absurd h (by simp)
  | some tv => simp

lemma blockedO_eq (h : Option Event) (e : Event) :
    blockedO h e = (isCopt h && isS e) := by
  cases h <;> rfl

lemma findTs_cons (y : Event) (L : List Event) (t : Int) :
    findTs (y :: L) t = if y.timestamp == t then some y else findTs L t := by
  unfold findTs
  cases h : y.timestamp == t <;> simp [List.find?_cons, h]

lemma findTs_some_ts {L : List Event} {t : Int} {y : Event}
    (h : findTs L t = some y) : y.timestamp = t := by
  have := List.find?_some h
  simpa using this

lemma findTs_some_mem {L : List Event} {t : Int} {y : Event}
    (h : findTs L t = some y) : y ∈ L :=
  List.mem_of_find?_eq_some h

lemma findTs_none_ts {L : List Event} {t : Int}
    (h : findTs L t = none) : ∀ y ∈ L, y.timestamp ≠ t := by
  intro y hy
  have := List.find?_eq_none.mp h y hy
  simpa using this

lemma findTs_mem_ne_none {L : List Event} {t : Int} {y : Event}
    (hy : y ∈ L) (ht : y.timestamp = t) : findTs L t ≠ none := by
  intro h
  exact findTs_none_ts h y hy ht

lemma findTs_append (A C : List Event) (t : Int) :
    findTs (A ++ C) t = oget (findTs A t) (findTs C t) := by
  induction A with
  | nil => simp [findTs, oget]
  | cons a A ih =>
    rw [List.cons_append, findTs_cons, findTs_cons]
    cases h : a.timestamp == t <;> simp [h, ih, oget]

lemma findTs_filter_self (L : List Event) (t : Int) :
    findTs (L.filter (fun y => y.timestamp != t)) t = none := by
  induction L with
  | nil => rfl
  | cons y L ih =>
    rw [List.filter_cons]
    cases h : y.timestamp != t
    · simpa [h] using ih
    · rw [if_pos (by simp [h]), findTs_cons]
      have h2 : (y.timestamp == t) = false := by
        simpa [bne] using h
      simpa [h2] using ih

lemma findTs_filter_ne {L : List Event} {t s : Int} (hst : s ≠ t) :
    findTs (L.filter (fun y => y.timestamp != t)) s = findTs L s := by
  induction L with
  | nil => rfl
  | cons y L ih =>
    rw [List.filter_cons, findTs_cons]
    cases h : y.timestamp != t
    · have hyt : y.timestamp = t := by simpa [bne] using h
      have hys : (y.timestamp == s) = false := by
        simp [hyt]
        exact fun he => hst he.symm
      simp [h, hys, ih]
    · rw [if_pos (by simp [h]), findTs_cons]
      cases hys : y.timestamp == s <;> simp [hys, ih]

lemma findTs_eq_some_of_nodup {X : List Event} {x : Event}
    (hnd : tsNodup X) (hx : x ∈ X) : findTs X x.timestamp = some x := by
  induction X with
  | nil => exact absurd hx (by simp)
  | cons y X ih =>
    simp only [tsNodup, List.map_cons, List.nodup_cons] at hnd
    rw [findTs_cons]
    rcases List.mem_cons.mp hx with rfl | hx'
    · simp
    · cases h : y.timestamp == x.timestamp
      · simp only [Bool.false_eq_true, if_false]
        exact ih hnd.2 hx'
      · exfalso
        have : y.timestamp = x.timestamp := by simpa using h
        exact hnd.1 (this ▸ List.mem_map_of_mem (·.timestamp) hx')

lemma findTs_decomp {L : List Event} {t : Int} {b : Event}
    (h : findTs L t = some b) :
    ∃ L1 L2, L = L1 ++ b :: L2 ∧ ∀ y ∈ L1, y.timestamp ≠ t := by
  induction L with
  | nil => exact absurd h (by simp [findTs])
  | cons y L ih =>
    rw [findTs_cons] at h
    cases hy : y.timestamp == t
    · rw [hy] at h
      simp only [Bool.false_eq_true, if_false] at h
      obtain ⟨L1, L2, rfl, hL1⟩ := ih h
      refine ⟨y :: L1, L2, rfl, ?_⟩
      intro z hz
      rcases List.mem_cons.mp hz with rfl | hz'
      · simpa using hy
      · exact hL1 z hz'
    · rw [hy] at h
      simp only [if_true, Option.some.injEq] at h
      subst h
      exact ⟨[], L, rfl, by simp⟩

lemma kCond_append (P Q : List Event) (x : Event) :
    kCond (P ++ Q) x = (kCond P x && kCond Q x) := by
  unfold kCond
  exact List.all_append

lemma kCond_cons (p : Event) (P : List Event) (x : Event) :
    kCond (p :: P) x
      = (((p.timestamp != x.timestamp) || blockedB x p) && kCond P x) := by
  unfold kCond
  simp [List.all_cons]

lemma kCond_self {B : List Event} {y : Event} (hy : y ∈ B) :
    kCond B y = false := by
  cases h : kCond B y
  · rfl
  · exfalso
    have := List.all_eq_true.mp h y hy
    simp only [bne_self_eq_false, Bool.false_or] at this
    rw [blockedB, isC_and_isS] at this
    exact absurd this (by simp)

lemma keepF_nil (X : List Event) : keepF X [] = X :=
  List.filter_eq_self.mpr fun _ _ => rfl

lemma tsNodup_filter {X : List Event} (p : Event → Bool)
    (h : tsNodup X) : tsNodup (X.filter p) :=
  h.sublist ((List.filter_sublist X).map (·.timestamp))

lemma oget_none_right (o : Option Event) : oget o none = o := by
  cases o <;> rfl

lemma oget_idem (a b : Option Event) : oget a (oget a b) = oget a b := by
  cases a <;> rfl

/-- Projection of one tail step to the slot at `t`. -/
lemma tailStep_proj (g : Int → Option Event) (U : List Event) (e : Event)
    (t : Int) :
    findTs (tailStepG g U e) t = slotStep (g t) t (findTs U t) e := by
  unfold tailStepG slotStep
  by_cases ht : e.timestamp = t
  · subst ht
    cases hb : blockedO (oget (findTs U e.timestamp) (g e.timestamp)) e
    · simp only [hb, Bool.false_eq_true, if_false, beq_self_eq_true, if_true]
      rw [findTs_append, findTs_filter_self]
      simp [oget, findTs_cons, findTs]
    · simp [hb]
  · have hbe : (e.timestamp == t) = false := by simpa using ht
    rw [hbe]
    simp only [Bool.false_eq_true, if_false]
    cases hb : blockedO (oget (findTs U e.timestamp) (g e.timestamp)) e
    · simp only [hb, Bool.false_eq_true, if_false]
      rw [findTs_append, findTs_filter_ne (fun h => ht h.symm)]
      have : findTs [e] t = none := by
        rw [findTs_cons, hbe]
        rfl
      rw [this, oget_none_right]
    · simp [hb]

/-- Projection of the whole tail fold to the slot at `t`. -/
lemma fold_proj (g : Int → Option Event) (B : List Event) :
    ∀ (U : List Event) (t : Int),
      findTs (B.foldl (tailStepG g) U) t
        = B.foldl (slotStep (g t) t) (findTs U t) := by
  induction B with
  | nil => intro U t; rfl
  | cons e B ih =>
    intro U t
    rw [List.foldl_cons, List.foldl_cons, ih, tailStep_proj]

/-- The slot entry, combined with the base holder, evolves by the holder
automaton. -/
lemma oget_fold_run (g0 : Option Event) (t : Int) (B : List Event) :
    ∀ (en : Option Event),
      oget (B.foldl (slotStep g0 t) en) g0
        = B.foldl (runStep t) (oget en g0) := by
  induction B with
  | nil => intro en; rfl
  | cons e B ih =>
    intro en
    rw [List.foldl_cons, List.foldl_cons, ih]
    have h : oget (slotStep g0 t en e) g0 = runStep t (oget en g0) e := by
      unfold slotStep runStep
      cases hg : e.timestamp == t
      · simp [hg]
      · simp only [hg, if_true]
        cases hb : blockedO (oget en g0) e
        · simp [hb, oget]
        · simp [hb]
    rw [h]

/-- A non-empty slot entry stays non-empty. -/
lemma slot_fold_ne_none (g0 : Option Event) (t : Int) (B : List Event) :
    ∀ en, en ≠ none → B.foldl (slotStep g0 t) en ≠ none := by
  induction B with
  | nil => intro en h; exact h
  | cons e B ih =>
    intro en h
    rw [List.foldl_cons]
    apply ih
    unfold slotStep
    cases hg : e.timestamp == t
    · simpa [hg] using h
    · cases hb : blockedO (oget en g0) e <;> simp [hb, h]

/-- An original event that blocks every batch event at its slot leaves the
slot's tail entry empty. -/
lemma slot_fold_none_of_kCond {x : Event} (P : List Event)
    (hx : kCond P x = true) :
    P.foldl (slotStep (some x) x.timestamp) none = none := by
  induction P with
  | nil => rfl
  | cons p P ih =>
    rw [kCond_cons, Bool.and_eq_true] at hx
    rw [List.foldl_cons]
    have hstep : slotStep (some x) x.timestamp none p = none := by
      unfold slotStep
      cases hg : p.timestamp == x.timestamp
      · simp [hg]
      · have hts : p.timestamp = x.timestamp := by simpa using hg
        have hbl : blockedB x p = true := by
          have h1 := hx.1
          rw [bne, hg] at h1
          simpa using h1
        simp [hg, oget, blockedO, hbl]
    rw [hstep]
    exact ih hx.2

/-- An original event with some non-blocked batch event at its slot yields a
non-empty slot entry. -/
lemma slot_fold_some_of_not_kCond {x : Event} (P : List Event)
    (hx : kCond P x = false) :
    P.foldl (slotStep (some x) x.timestamp) none ≠ none := by
  induction P with
  | nil => exact absurd hx (by simp [kCond])
  | cons p P ih =>
    rw [kCond_cons] at hx
    rw [List.foldl_cons]
    cases h1 : ((p.timestamp != x.timestamp) || blockedB x p)
    · have hts : p.timestamp = x.timestamp := by
        cases hbne : p.timestamp != x.timestamp
        · simpa [bne] using hbne
        · rw [hbne] at h1; exact absurd h1 (by simp)
      have hnb : blockedB x p = false := by
        cases hb : blockedB x p
        · rfl
        · rw [hb] at h1; exact absurd h1 (by simp)
      have hstep : slotStep (some x) x.timestamp none p = some p := by
        unfold slotStep
        simp [hts, oget, blockedO, hnb]
      rw [hstep]
      exact slot_fold_ne_none _ _ _ _ (by simp)
    · rw [h1] at hx
      simp only [Bool.true_and] at hx
      cases hv : slotStep (some x) x.timestamp none p with
      | none => exact ih hx
      | some q => exact slot_fold_ne_none _ _ _ _ (by simp)

/-- Tail members come from the accumulated tail or the batch. -/
lemma mem_tail_fold {g : Int → Option Event} {B : List Event} :
    ∀ {U : List Event} {y : Event},
      y ∈ B.foldl (tailStepG g) U → y ∈ U ∨ y ∈ B := by
  induction B with
  | nil => intro U y h; exact Or.inl h
  | cons e B ih =>
    intro U y h
    rw [List.foldl_cons] at h
    rcases ih h with h' | h'
    · unfold tailStepG at h'
      split at h'
      · exact Or.inl h'
      · rcases List.mem_append.mp h' with h'' | h''
        · exact Or.inl (List.mem_of_mem_filter h'')
        · simp only [List.mem_singleton] at h''
          exact Or.inr (h'' ▸ List.mem_cons_self e B)
    · exact Or.inr (List.mem_cons_of_mem e h')

/-- The tail fold keeps timestamps pairwise distinct. -/
lemma tsNodup_tail_fold {g : Int → Option Event} {B : List Event} :
    ∀ {U : List Event}, tsNodup U → tsNodup (B.foldl (tailStepG g) U) := by
  induction B with
  | nil => intro U h; exact h
  | cons e B ih =>
    intro U h
    rw [List.foldl_cons]
    apply ih
    unfold tailStepG
    split
    · exact h
    · unfold tsNodup
      rw [List.map_append, List.map_cons, List.map_nil, List.nodup_append]
      refine ⟨tsNodup_filter _ h, List.nodup_singleton _, ?_⟩
      intro a ha
      simp only [List.mem_singleton]
      intro he
      subst he
      rcases List.mem_map.mp ha with ⟨y, hy, hts⟩
      have := List.of_mem_filter hy
      rw [hts] at this
      simp [bne] at this

lemma tsNodup_middle_ne {K1 K2 : List Event} {x : Event}
    (h : tsNodup (K1 ++ x :: K2)) :
    ∀ y ∈ K1 ++ K2, y.timestamp ≠ x.timestamp := by
  unfold tsNodup at h
  rw [List.map_append, List.map_cons] at h
  intro y hy he
  rcases List.mem_append.mp hy with hy1 | hy2
  · have hx : x.timestamp ∈ (K1.map (·.timestamp)) := by
      rw [← he]; exact List.mem_map_of_mem _ hy1
    exact (List.disjoint_of_nodup_append h) hx (by simp)
  · have h2 := (List.nodup_append.mp h).2.1
    rw [List.nodup_cons] at h2
    exact h2.1 (he ▸ List.mem_map_of_mem (·.timestamp) hy2)

/-- Two events of a timestamp-distinct log sharing a timestamp are equal. -/
lemma eq_of_ts_eq {X : List Event} {x y : Event} (hnd : tsNodup X)
    (hx : x ∈ X) (hy : y ∈ X) (h : x.timestamp = y.timestamp) : x = y := by
  induction X with
  | nil => exact absurd hx (by simp)
  | cons a X ih =>
    simp only [tsNodup, List.map_cons, List.nodup_cons] at hnd
    rcases List.mem_cons.mp hx with rfl | hx' <;>
      rcases List.mem_cons.mp hy with h2 | hy'
    · exact h2.symm
    · exact absurd (h ▸ List.mem_map_of_mem (·.timestamp) hy') hnd.1
    · subst h2
      exact absurd (h ▸ List.mem_map_of_mem (·.timestamp) hx') hnd.1
    · exact ih hnd.2 hx' hy'

/-- A kept original leaves its slot's tail entry empty. -/
lemma tail_none_of_keep {X P : List Event} {x : Event}
    (hnd : tsNodup X) (hx : x ∈ X) (hk : kCond P x = true) :
    findTs (tailT X P) x.timestamp = none := by
  unfold tailT
  rw [fold_proj, findTs_eq_some_of_nodup hnd hx]
  exact slot_fold_none_of_kCond P hk

/-- A displaced original leaves a batch survivor in its slot. -/
lemma tail_some_of_not_keep {X P : List Event} {x : Event}
    (hnd : tsNodup X) (hx : x ∈ X) (hk : kCond P x = false) :
    findTs (tailT X P) x.timestamp ≠ none := by
  unfold tailT
  rw [fold_proj, findTs_eq_some_of_nodup hnd hx]
  exact slot_fold_some_of_not_kCond P hk

/-- A slot empty in both the kept part and the tail was empty in the log. -/
lemma holder_none_of_both_none {X P : List Event} {t : Int}
    (hnd : tsNodup X)
    (hK : findTs (keepF X P) t = none) (hT : findTs (tailT X P) t = none) :
    findTs X t = none := by
  cases hX : findTs X t with
  | none => rfl
  | some x =>
    exfalso
    have hxm := findTs_some_mem hX
    have hxt := findTs_some_ts hX
    cases hk : kCond P x
    · exact tail_some_of_not_keep hnd hxm hk (hxt ▸ hT)
    · have hmem : x ∈ keepF X P := List.mem_filter.mpr ⟨hxm, hk⟩
      exact findTs_mem_ne_none hmem hxt hK

lemma filter_and (p q : Event → Bool) (l : List Event) :
    (l.filter p).filter q = l.filter fun y => p y && q y := by
  induction l with
  | nil => rfl
  | cons a l ih =>
    rw [List.filter_cons, List.filter_cons]
    cases hp : p a
    · simpa [hp] using ih
    · rw [if_pos (by simp), List.filter_cons]
      cases hq : q a <;> simp [hp, hq, ih]

/-- Extending the processed batch by one event refines the kept part by that
event's blocking condition. -/
lemma keepF_append_singleton (X P : List Event) (e : Event) :
    keepF X (P ++ [e])
      = (keepF X P).filter
          (fun y => (e.timestamp != y.timestamp) || blockedB y e) := by
  unfold keepF
  rw [filter_and]
  apply List.filter_congr
  intro y _
  rw [kCond_append]
  have h1 : kCond [e] y = ((e.timestamp != y.timestamp) || blockedB y e) := by
    unfold kCond
    simp [List.all_cons]
  rw [h1]

lemma tailT_append_singleton (X P : List Event) (e : Event) :
    tailT X (P ++ [e]) = tailStepG (findTs X) (tailT X P) e := by
  unfold tailT
  rw [List.foldl_append]
  rfl

lemma filter_ts_eq_self {T : List Event} {t : Int}
    (h : findTs T t = none) :
    T.filter (fun y => y.timestamp != t) = T := by
  apply List.filter_eq_self.mpr
  intro y hy
  simpa [bne] using findTs_none_ts h y hy

/-- Head-match behaviour of `Senate._add_floor_action` on typed events. -/
lemma senateAdd_cons_match {x e : Event} {tx te : PyType} (L : List Event)
    (hts : x.timestamp = e.timestamp) (hx : x.etype = some tx)
    (he : e.etype = some te) :
    senateAdd (x :: L) e
      = .ok (if blockedB x e then x :: L else L ++ [e]) := by
  unfold senateAdd
  rw [if_pos hts, senateTypeBlocked_eq hx he]
  cases hb : blockedB x e <;> simp [hb, bind, PyRes.bind]

lemma tsNodup_nil : tsNodup [] := by simp [tsNodup]

lemma keep_filter_id {X P : List Event} {e : Event}
    (h : ∀ y ∈ keepF X P, y.timestamp ≠ e.timestamp) :
    (keepF X P).filter
        (fun y => (e.timestamp != y.timestamp) || blockedB y e)
      = keepF X P := by
  apply List.filter_eq_self.mpr
  intro y hy
  have h2 : e.timestamp ≠ y.timestamp := fun hh => (h y hy) hh.symm
  simp [bne_iff_ne, h2]

/-- One merge step preserves the keep/tail normal form: adding the next
batch event to `keepF X P ++ tailT X P` yields
`keepF X (P ++ [e]) ++ tailT X (P ++ [e])`. -/
lemma stepChar (X P : List Event) (e : Event)
    (hndX : tsNodup X)
    (htye : e.etype.isSome)
    (htyP : ∀ p ∈ P, p.etype.isSome)
    (htyX : ∀ x ∈ X, x.timestamp = e.timestamp → x.etype.isSome) :
    senateAdd (keepF X P ++ tailT X P) e
      = .ok (keepF X (P ++ [e]) ++ tailT X (P ++ [e])) := by
  obtain ⟨te, hte⟩ := Option.isSome_iff_exists.mp htye
  rw [keepF_append_singleton, tailT_append_singleton]
  cases hKf : findTs (keepF X P) e.timestamp with
  | some x =>
    -- an original event survives so far at the incoming slot
    have hxm : x ∈ keepF X P := findTs_some_mem hKf
    have hxX : x ∈ X := List.mem_of_mem_filter hxm
    have hkx : kCond P x = true := List.of_mem_filter hxm
    have hxt : x.timestamp = e.timestamp := findTs_some_ts hKf
    have hTn : findTs (tailT X P) e.timestamp = none :=
      hxt ▸ tail_none_of_keep hndX hxX hkx
    obtain ⟨tx, htx⟩ := Option.isSome_iff_exists.mp (htyX x hxX hxt)
    obtain ⟨K1, K2, hKdec, hK1⟩ := findTs_decomp hKf
    have hKnd : tsNodup (keepF X P) := tsNodup_filter _ hndX
    have hK12 : ∀ y ∈ K1 ++ K2, y.timestamp ≠ x.timestamp := by
      rw [hKdec] at hKnd
      exact tsNodup_middle_ne hKnd
    have hXx : findTs X e.timestamp = some x := hxt ▸
      findTs_eq_some_of_nodup hndX hxX
    have hstep :
        tailStepG (findTs X) (tailT X P) e
          = if blockedB x e then tailT X P
            else (tailT X P).filter (fun y => y.timestamp != e.timestamp)
                   ++ [e] := by
      unfold tailStepG
      rw [hTn, hXx]
      rfl
    rw [hKdec, List.append_assoc, List.cons_append,
      senateAdd_prependNomatch hK1,
      senateAdd_cons_match (K2 ++ tailT X P) hxt htx hte]
    cases hb : blockedB x e
    · -- replacement: the old original goes, the event is appended
      have hcEx :
          ((e.timestamp != x.timestamp) || blockedB x e) = false := by
        rw [hb, hxt]
        simp
      have hK1f : K1.filter
          (fun y => (e.timestamp != y.timestamp) || blockedB y e) = K1 := by
        apply List.filter_eq_self.mpr
        intro y hy
        have h2 : e.timestamp ≠ y.timestamp := fun hh =>
          hK1 y hy (hh ▸ hxt ▸ rfl)
        simp [bne_iff_ne, h2]
      have hK2f : K2.filter
          (fun y => (e.timestamp != y.timestamp) || blockedB y e) = K2 := by
        apply List.filter_eq_self.mpr
        intro y hy
        have h2 : e.timestamp ≠ y.timestamp := fun hh => by
          exact hK12 y (List.mem_append.mpr (Or.inr hy)) (hxt ▸ hh.symm)
        simp [bne_iff_ne, h2]
      rw [hstep, hb]
      simp only [Bool.false_eq_true, if_false, PyRes.bind, hKdec,
        List.filter_append, List.filter_cons, hcEx, hK1f, hK2f,
        filter_ts_eq_self hTn]
      simp [List.append_assoc]
    · -- blocked: everything unchanged
      have hkeep : (keepF X P).filter
          (fun y => (e.timestamp != y.timestamp) || blockedB y e)
            = keepF X P := by
        apply List.filter_eq_self.mpr
        intro y hy
        by_cases hyt : y.timestamp = e.timestamp
        · have hyx : y = x :=
            eq_of_ts_eq hndX (List.mem_of_mem_filter hy) hxX
              (hyt.trans hxt.symm)
          subst hyx
          simp [hb]
        · have h2 : e.timestamp ≠ y.timestamp := fun hh => hyt hh.symm
          simp [bne_iff_ne, h2]
      rw [hKdec] at hkeep
      rw [hstep, hb, hkeep]
      simp [PyRes.bind, List.append_assoc]
  | none =>
    have hKno : ∀ y ∈ keepF X P, y.timestamp ≠ e.timestamp :=
      findTs_none_ts hKf
    have hkeep := keep_filter_id hKno
    cases hTf : findTs (tailT X P) e.timestamp with
    | some b =>
      -- a batch survivor holds the incoming slot
      have hbm : b ∈ tailT X P := findTs_some_mem hTf
      have hbP : b ∈ P := by
        rcases mem_tail_fold hbm with h | h
        · exact absurd h (by simp)
        · exact h
      have hbt : b.timestamp = e.timestamp := findTs_some_ts hTf
      obtain ⟨tb, htb⟩ := Option.isSome_iff_exists.mp (htyP b hbP)
      obtain ⟨T1, T2, hTdec, hT1⟩ := findTs_decomp hTf
      have hTnd : tsNodup (tailT X P) := tsNodup_tail_fold tsNodup_nil
      have hT12 : ∀ y ∈ T1 ++ T2, y.timestamp ≠ b.timestamp := by
        rw [hTdec] at hTnd
        exact tsNodup_middle_ne hTnd
      have hstep :
          tailStepG (findTs X) (tailT X P) e
            = if blockedB b e then tailT X P
              else (tailT X P).filter (fun y => y.timestamp != e.timestamp)
                     ++ [e] := by
        unfold tailStepG
        rw [hTf]
        rfl
      have hfilterT :
          (tailT X P).filter (fun y => y.timestamp != e.timestamp)
            = T1 ++ T2 := by
        rw [hTdec, List.filter_append, List.filter_cons]
        have hbne : (b.timestamp != e.timestamp) = false := by
          simp [bne_iff_ne, hbt]
        rw [hbne]
        have hT1f : T1.filter (fun y => y.timestamp != e.timestamp) = T1 :=
          List.filter_eq_self.mpr fun y hy => by
            simp [bne_iff_ne, hT1 y hy]
        have hT2f : T2.filter (fun y => y.timestamp != e.timestamp) = T2 :=
          List.filter_eq_self.mpr fun y hy => by
            have := hT12 y (List.mem_append.mpr (Or.inr hy))
            simp [bne_iff_ne, hbt ▸ this]
        simp [hT1f, hT2f]
      rw [hTdec, ← List.append_assoc,
        senateAdd_prependNomatch
          (fun p hp => by
            rcases List.mem_append.mp hp with h | h
            · exact hKno p h
            · exact hT1 p h),
        senateAdd_cons_match T2 hbt htb hte]
      cases hb : blockedB b e
      · rw [hTdec] at hstep hfilterT
        rw [hstep, hb, hkeep, hfilterT]
        simp [PyRes.bind, List.append_assoc]
      · rw [hTdec] at hstep
        rw [hstep, hb, hkeep]
        simp [PyRes.bind, List.append_assoc]
    | none =>
      -- fresh slot: plain append on both sides
      have hTno : ∀ y ∈ tailT X P, y.timestamp ≠ e.timestamp :=
        findTs_none_ts hTf
      have hXn : findTs X e.timestamp = none :=
        holder_none_of_both_none hndX hKf hTf
      have hstep :
          tailStepG (findTs X) (tailT X P) e
            = (tailT X P).filter (fun y => y.timestamp != e.timestamp)
                ++ [e] := by
        unfold tailStepG
        rw [hTf, hXn]
        rfl
      rw [senateAdd_nomatch
        (fun y hy => by
          rcases List.mem_append.mp hy with h | h
          · exact hKno y h
          · exact hTno y h)]
      rw [hstep, hkeep, filter_ts_eq_self hTf]
      simp [List.append_assoc]

/-- Merging the remaining batch over the normal form of the processed
prefix produces the normal form of the full batch. -/
lemma chargen (X : List Event) (rest : List Event) :
    ∀ P, tsNodup X → (∀ p ∈ P, p.etype.isSome) →
      (∀ e ∈ rest, e.etype.isSome) →
      (∀ x ∈ X, (∃ e ∈ rest, e.timestamp = x.timestamp) → x.etype.isSome) →
      senateMergeBatch rest (keepF X P ++ tailT X P)
        = .ok (keepF X (P ++ rest) ++ tailT X (P ++ rest)) := by
  induction rest with
  | nil =>
    intro P hnd _ _ _
    simp [senateMergeBatch]
  | cons e rest ih =>
    intro P hnd htyP htyR htyX
    have hstep := stepChar X P e hnd (htyR e (by simp)) htyP
      (fun x hx hts => htyX x hx ⟨e, by simp, hts.symm⟩)
    unfold senateMergeBatch
    rw [hstep]
    simp only [PyRes.bind]
    have ih' := ih (P ++ [e]) hnd
      (fun p hp => by
        rcases List.mem_append.mp hp with h | h
        · exact htyP p h
        · simp only [List.mem_singleton] at h
          exact h ▸ htyR e (by simp))
      (fun e' he' => htyR e' (by simp [he']))
      (fun x hx h => by
        obtain ⟨e', he', hts⟩ := h
        exact htyX x hx ⟨e', by simp [he'], hts⟩)
    rw [ih']
    simp [List.append_assoc]

/-- Characterisation of a full Senate batch merge: the in-place survivors
followed by the batch-survivor tail. -/
lemma mergeChar (X B : List Event)
    (hnd : tsNodup X) (htyB : ∀ e ∈ B, e.etype.isSome)
    (htyX : ∀ x ∈ X, (∃ e ∈ B, e.timestamp = x.timestamp) →
      x.etype.isSome) :
    senateMergeBatch B X = .ok (keepF X B ++ tailT X B) := by
  have h := chargen X B [] hnd (by simp) htyB htyX
  rw [keepF_nil] at h
  have htl : tailT X [] = [] := rfl
  rw [htl] at h
  simpa using h

/-- A successful add read the type of every log event at the incoming
timestamp. -/
lemma senateAdd_typed_at (e : Event) :
    ∀ (X R : List Event), senateAdd X e = .ok R → tsNodup X →
      ∀ x ∈ X, x.timestamp = e.timestamp → x.etype.isSome := by
  intro X
  induction X with
  | nil => intro R h hnd x hx; exact absurd hx (by simp)
  | cons y Y ih =>
    intro R h hnd x hx hts
    simp only [tsNodup, List.map_cons, List.nodup_cons] at hnd
    by_cases hy : y.timestamp = e.timestamp
    · simp only [senateAdd, if_pos hy, bind] at h
      rcases List.mem_cons.mp hx with rfl | hx'
      · cases hb : senateTypeBlocked x e with
        | exn => rw [hb] at h; exact absurd h (by simp [PyRes.bind])
        | ok b => exact senateTypeBlocked_ok_typed hb
      · exfalso
        apply hnd.1
        rw [hy, ← hts]
        exact List.mem_map_of_mem _ hx'
    · simp only [senateAdd, if_neg hy, bind] at h
      rcases List.mem_cons.mp hx with rfl | hx'
      · exact absurd hts hy
      · cases hr : senateAdd Y e with
        | exn => rw [hr] at h; exact absurd h (by simp [PyRes.bind])
        | ok r => exact ih r hr hnd.2 x hx' hts

/-- An add leaves events at other timestamps in the log. -/
lemma senateAdd_mem_preserved (e : Event) :
    ∀ (X R : List Event), senateAdd X e = .ok R →
      ∀ x ∈ X, x.timestamp ≠ e.timestamp → x ∈ R := by
  intro X
  induction X with
  | nil => intro R h x hx; exact absurd hx (by simp)
  | cons y Y ih =>
    intro R h x hx hne
    by_cases hy : y.timestamp = e.timestamp
    · simp only [senateAdd, if_pos hy, bind] at h
      cases hb : senateTypeBlocked y e with
      | exn => rw [hb] at h; exact absurd h (by simp [PyRes.bind])
      | ok b =>
        rw [hb] at h
        cases b
        · simp only [PyRes.bind, Bool.false_eq_true, if_false,
            PyRes.ok.injEq] at h
          subst h
          rcases List.mem_cons.mp hx with rfl | hx'
          · exact absurd hy hne
          · exact List.mem_append.mpr (Or.inl hx')
        · simp only [PyRes.bind, if_pos, PyRes.ok.injEq] at h
          subst h
          exact hx
    · simp only [senateAdd, if_neg hy, bind] at h
      cases hr : senateAdd Y e with
      | exn => rw [hr] at h; exact absurd h (by simp [PyRes.bind])
      | ok r =>
        rw [hr] at h
        simp only [PyRes.bind, PyRes.ok.injEq] at h
        subst h
        rcases List.mem_cons.mp hx with rfl | hx'
        · exact List.mem_cons_self _ _
        · exact List.mem_cons_of_mem _ (ih r hr x hx' hne)

/-- Batch merging preserves timestamp uniqueness. -/
lemma senateMergeBatch_nodup :
    ∀ (B X Y : List Event), senateMergeBatch B X = .ok Y → tsNodup X →
      tsNodup Y := by
  intro B
  induction B with
  | nil =>
    intro X Y h hnd
    simp only [senateMergeBatch, PyRes.ok.injEq] at h
    exact h ▸ hnd
  | cons e B ih =>
    intro X Y h hnd
    unfold senateMergeBatch at h
    cases ha : senateAdd X e with
    | exn => rw [ha] at h; exact absurd h (by simp [PyRes.bind])
    | ok X1 =>
      rw [ha] at h
      simp only [PyRes.bind] at h
      exact ih X1 Y h (senateAdd_nodup ha hnd)

/-- A successful batch merge read the type of every log event whose
timestamp occurs in the batch. -/
lemma merge_typed_at :
    ∀ (B X Y : List Event), senateMergeBatch B X = .ok Y → tsNodup X →
      ∀ x ∈ X, (∃ e ∈ B, e.timestamp = x.timestamp) → x.etype.isSome := by
  intro B
  induction B with
  | nil =>
    intro X Y h hnd x hx hex
    obtain ⟨e, he, _⟩ := hex
    exact absurd he (by simp)
  | cons b B ih =>
    intro X Y h hnd x hx hex
    unfold senateMergeBatch at h
    cases ha : senateAdd X b with
    | exn => rw [ha] at h; exact absurd h (by simp [PyRes.bind])
    | ok X1 =>
      rw [ha] at h
      simp only [PyRes.bind] at h
      obtain ⟨e, he, hts⟩ := hex
      rcases List.mem_cons.mp he with rfl | he'
      · exact senateAdd_typed_at e X X1 ha hnd x hx hts.symm
      · by_cases hxb : x.timestamp = b.timestamp
        · exact senateAdd_typed_at b X X1 ha hnd x hx hxb
        · exact ih X1 Y h (senateAdd_nodup ha hnd) x
            (senateAdd_mem_preserved b X X1 ha x hx hxb) ⟨e, he', hts⟩

/-- A tail step leaves the other slots of the accumulated tail unchanged. -/
lemma step_filter_self (g : Int → Option Event) (U : List Event) (e : Event) :
    (tailStepG g U e).filter (fun y => y.timestamp != e.timestamp)
      = U.filter (fun y => y.timestamp != e.timestamp) := by
  unfold tailStepG
  split
  · rfl
  · rw [List.filter_append, filter_and]
    simp [Bool.and_self, List.filter_cons, bne_self_eq_false]

/-- The tail fold, with the incoming event's slot filtered away, does not
depend on the base holder of that slot nor on that slot's accumulated
entry. -/
lemma offslot (t : Int) (B : List Event) :
    ∀ (g1 g2 : Int → Option Event) (U1 U2 : List Event),
      (∀ s, s ≠ t → g1 s = g2 s) →
      U1.filter (fun y => y.timestamp != t)
        = U2.filter (fun y => y.timestamp != t) →
      (B.foldl (tailStepG g1) U1).filter (fun y => y.timestamp != t)
        = (B.foldl (tailStepG g2) U2).filter (fun y => y.timestamp != t) := by
  induction B with
  | nil => intro g1 g2 U1 U2 hg hU; exact hU
  | cons e B ih =>
    intro g1 g2 U1 U2 hg hU
    rw [List.foldl_cons, List.foldl_cons]
    apply ih _ _ _ _ hg
    by_cases ht : e.timestamp = t
    · subst ht
      rw [step_filter_self, step_filter_self]
      exact hU
    · have hfind : findTs U1 e.timestamp = findTs U2 e.timestamp := by
        have h1 := findTs_filter_ne (L := U1) (t := t) ht
        have h2 := findTs_filter_ne (L := U2) (t := t) ht
        rw [← h1, ← h2, hU]
      have hcomm : ∀ (U : List Event),
          (U.filter (fun y => y.timestamp != e.timestamp)).filter
              (fun y => y.timestamp != t)
            = (U.filter (fun y => y.timestamp != t)).filter
                (fun y => y.timestamp != e.timestamp) := by
        intro U
        rw [filter_and, filter_and]
        apply List.filter_congr
        intro y _
        exact Bool.and_comm _ _
      unfold tailStepG
      rw [hfind, hg e.timestamp ht]
      split
      · exact hU
      · rw [List.filter_append, List.filter_append, hcomm U1, hcomm U2, hU]

/-- Starting the holder automaton from a `CONVENE_SCHEDULED` event cannot
make its outcome a `CONVENE` if the original start did not. -/
lemma locc (t : Int) (B : List Event) :
    ∀ (e : Event) (hb : Option Event), isS e = true →
      isCopt (runG hb B t) = false → isCopt (runG (some e) B t) = false := by
  induction B with
  | nil =>
    intro e hb hse h
    simpa [runG, isCopt] using isS_not_isC hse
  | cons e2 B ih =>
    intro e hb hse h
    unfold runG at h ⊢
    rw [List.foldl_cons] at h ⊢
    by_cases hts : e2.timestamp = t
    · have hg : (e2.timestamp == t) = true := by simpa using hts
      cases hse2 : isS e2
      · have hstep1 : runStep t hb e2 = some e2 := by
          unfold runStep
          rw [hg]
          have hbl : blockedO hb e2 = false := by
            rw [blockedO_eq, hse2]
            simp
          simp [hbl]
        have hstep2 : runStep t (some e) e2 = some e2 := by
          unfold runStep
          rw [hg]
          have hbl : blockedO (some e) e2 = false := by
            rw [blockedO_eq, hse2]
            simp
          simp [hbl]
        rw [hstep1] at h
        rw [hstep2]
        exact h
      · have hstep2 : runStep t (some e) e2 = some e2 := by
          unfold runStep
          rw [hg]
          have hbl : blockedO (some e) e2 = false := by
            rw [blockedO_eq]
            simp [isCopt, isS_not_isC hse]
          simp [hbl]
        rw [hstep2]
        exact ih e2 (runStep t hb e2) hse2 h
    · have hg : (e2.timestamp == t) = false := by simpa using hts
      have hstep1 : runStep t hb e2 = hb := by unfold runStep; simp [hg]
      have hstep2 : runStep t (some e) e2 = some e := by
        unfold runStep
        simp [hg]
      rw [hstep1] at h
      rw [hstep2]
      exact ih e hb hse h

/-- Replaying the whole batch, with the final slot holders of the first run
as the base log, reproduces the first run's tail. -/
lemma gteq (h0 : Int → Option Event) (B : List Event) :
    B.foldl (tailStepG
        (fun s => oget (findTs (B.foldl (tailStepG h0) []) s) (h0 s))) []
      = B.foldl (tailStepG h0) [] := by
  induction B using List.reverseRecOn with
  | nil => rfl
  | append_singleton B' e ih =>
    rw [List.foldl_append, List.foldl_append]
    simp only [List.foldl_cons, List.foldl_nil]
    cases hb : blockedO
        (oget (findTs (B'.foldl (tailStepG h0) []) e.timestamp)
          (h0 e.timestamp)) e
    · -- the last event of the first run was accepted
      have hT : tailStepG h0 (B'.foldl (tailStepG h0) []) e
          = (B'.foldl (tailStepG h0) []).filter
              (fun y => y.timestamp != e.timestamp) ++ [e] := by
        simp only [tailStepG]
        rw [hb]
        simp
      rw [hT]
      have hgoff : ∀ s, s ≠ e.timestamp →
          oget (findTs ((B'.foldl (tailStepG h0) []).filter
              (fun y => y.timestamp != e.timestamp) ++ [e]) s) (h0 s)
            = oget (findTs (B'.foldl (tailStepG h0) []) s) (h0 s) := by
        intro s hs
        rw [findTs_append, findTs_filter_ne hs]
        have h1 : findTs [e] s = none := by
          rw [findTs_cons]
          have h2 : (e.timestamp == s) = false := by
            simp only [beq_eq_false_iff_ne, ne_eq]
            exact fun hh => hs hh.symm
          simp [h2, findTs]
        rw [h1, oget_none_right]
      have hoff := offslot e.timestamp B'
        (fun s => oget (findTs ((B'.foldl (tailStepG h0) []).filter
            (fun y => y.timestamp != e.timestamp) ++ [e]) s) (h0 s))
        (fun s => oget (findTs (B'.foldl (tailStepG h0) []) s) (h0 s))
        [] [] (fun s hs => hgoff s hs) rfl
      rw [ih] at hoff
      have hgt : oget (findTs ((B'.foldl (tailStepG h0) []).filter
          (fun y => y.timestamp != e.timestamp) ++ [e]) e.timestamp)
            (h0 e.timestamp) = some e := by
        rw [findTs_append, findTs_filter_self]
        have h1 : findTs [e] e.timestamp = some e := by
          rw [findTs_cons]
          simp
        rw [h1]
        rfl
      have hbrun : blockedO (runG (h0 e.timestamp) B' e.timestamp) e
          = false := by
        have h1 := fold_proj h0 B' [] e.timestamp
        rw [h1] at hb
        have h2 := oget_fold_run (h0 e.timestamp) e.timestamp B'
          (findTs ([] : List Event) e.timestamp)
        rw [h2] at hb
        simpa [oget, runG, findTs] using hb
      have hnotbl : blockedO (runG (some e) B' e.timestamp) e = false := by
        rw [blockedO_eq]
        cases hse : isS e
        · simp
        · have h3 : isCopt (runG (h0 e.timestamp) B' e.timestamp)
              = false := by
            rw [blockedO_eq, hse] at hbrun
            simpa using hbrun
          simp [locc e.timestamp B' e (h0 e.timestamp) hse h3]
      have hH : oget (findTs (B'.foldl (tailStepG
          (fun s => oget (findTs ((B'.foldl (tailStepG h0) []).filter
            (fun y => y.timestamp != e.timestamp) ++ [e]) s) (h0 s))) [])
              e.timestamp)
            (oget (findTs ((B'.foldl (tailStepG h0) []).filter
              (fun y => y.timestamp != e.timestamp) ++ [e]) e.timestamp)
                (h0 e.timestamp))
          = runG (some e) B' e.timestamp := by
        rw [fold_proj]
        rw [hgt]
        have h2 := oget_fold_run (some e) e.timestamp B'
          (findTs ([] : List Event) e.timestamp)
        rw [h2]
        simp [oget, runG, findTs]
      simp only [tailStepG]
      beta_reduce
      rw [hH, hnotbl]
      simp only [Bool.false_eq_true, if_false]
      rw [hoff]
    · -- the last event of the first run was blocked: nothing changed
      have hT : tailStepG h0 (B'.foldl (tailStepG h0) []) e
          = B'.foldl (tailStepG h0) [] := by
        simp only [tailStepG]
        rw [hb]
        simp
      rw [hT, ih]
      simp only [tailStepG]
      beta_reduce
      rw [oget_idem, hb]
      simp

/-- The slot holders of a merged log: the tail survivor if the batch won the
slot, else the original log's event. -/
lemma holder_merged (X B : List Event) (hnd : tsNodup X) :
    ∀ t, findTs (keepF X B ++ tailT X B) t
      = oget (findTs (tailT X B) t) (findTs X t) := by
  intro t
  rw [findTs_append]
  cases hK : findTs (keepF X B) t with
  | some x =>
    have hxm : x ∈ keepF X B := findTs_some_mem hK
    have hxX : x ∈ X := List.mem_of_mem_filter hxm
    have hkx : kCond B x = true := List.of_mem_filter hxm
    have hxt : x.timestamp = t := findTs_some_ts hK
    have hTn : findTs (tailT X B) t = none :=
      hxt ▸ tail_none_of_keep hnd hxX hkx
    have hXx : findTs X t = some x :=
      hxt ▸ findTs_eq_some_of_nodup hnd hxX
    rw [hTn, hXx]
    rfl
  | none =>
    cases hT : findTs (tailT X B) t with
    | some b => rfl
    | none =>
      have hXn : findTs X t = none := holder_none_of_both_none hnd hK hT
      rw [hXn]

/-- Re-merging the batch keeps exactly the originally kept events. -/
lemma keep_replay (X B : List Event) :
    keepF (keepF X B ++ tailT X B) B = keepF X B := by
  unfold keepF
  rw [List.filter_append]
  have h1 : (X.filter (kCond B)).filter (kCond B) = X.filter (kCond B) := by
    rw [filter_and]
    simp [Bool.and_self]
  have h2 : (tailT X B).filter (kCond B) = [] := by
    apply List.filter_eq_nil_iff.mpr
    intro y hy
    have hyB : y ∈ B := by
      rcases mem_tail_fold hy with h | h
      · exact absurd h (by simp)
      · exact h
    simp [kCond_self hyB]
  rw [h1, h2, List.append_nil]

/-- Re-merging the batch rebuilds exactly the original tail. -/
lemma tail_replay (X B : List Event) (hnd : tsNodup X) :
    tailT (keepF X B ++ tailT X B) B = tailT X B := by
  have hfun : findTs (keepF X B ++ tailT X B)
      = fun s => oget (findTs (tailT X B) s) (findTs X s) := by
    funext t
    exact holder_merged X B hnd t
  show B.foldl (tailStepG (findTs (keepF X B ++ tailT X B))) [] = tailT X B
  rw [hfun]
  exact gteq (findTs X) B

/-- C5 as amended.  Merging the same parsed Senate batch twice produces the
same event log as merging it once: if the starting log's timestamps are
pairwise distinct (the maintained invariant) and every batch event carries a
`'type'` key (every parsed Senate event does), then re-merging the batch
into the result of the first merge returns that result unchanged.  House
ingest is *not* idempotent: see
`c5_counterexample_end_day_not_idempotent`. -/
theorem c5_senate_batch_idempotent (B evs evs1 : List Event)
    (hB : ∀ e ∈ B, e.etype.isSome) (hnd : tsNodup evs)
    (h1 : senateMergeBatch B evs = .ok evs1) :
    senateMergeBatch B evs1 = .ok evs1 := by
  have htyX := merge_typed_at B evs evs1 h1 hnd
  have hchar := mergeChar evs B hnd hB htyX
  have hY : evs1 = keepF evs B ++ tailT evs B :=
    (PyRes.ok.injEq _ _).mp (h1.symm.trans hchar)
  have hndY : tsNodup evs1 := senateMergeBatch_nodup B evs evs1 h1 hnd
  have htyY : ∀ x ∈ evs1, (∃ e ∈ B, e.timestamp = x.timestamp) →
      x.etype.isSome := by
    intro x hx hex
    rw [hY] at hx
    rcases List.mem_append.mp hx with h | h
    · obtain ⟨e, he, hts⟩ := hex
      have hk : kCond B x = true := List.of_mem_filter h
      have h2 := List.all_eq_true.mp hk e he
      have h3 : (e.timestamp != x.timestamp) = false := by
        simp [bne_iff_ne, hts]
      rw [h3] at h2
      simp only [Bool.false_or] at h2
      simp only [blockedB, Bool.and_eq_true] at h2
      exact isC_typed h2.1
    · refine hB x ?_
      rcases mem_tail_fold h with h' | h'
      · exact absurd h' (by simp)
      · exact h'
  have hchar2 := mergeChar evs1 B hndY hB htyY
  rw [hchar2, hY, keep_replay, tail_replay _ _ hnd]

/-- Witness for `c5_senate_batch_idempotent`: merging the two-event batch
`[CONVENE @ 10, ADJOURN @ 20]` into the log `[CONVENE_SCHEDULED @ 10]`
yields `[CONVENE @ 10, ADJOURN @ 20]`, and re-merging the same batch into
that result leaves it unchanged. -/
theorem c5_witness :
    senateMergeBatch [wConv10, wAdj20] [wSched10] = .ok [wConv10, wAdj20]
      ∧ senateMergeBatch [wConv10, wAdj20] [wConv10, wAdj20]
          = .ok [wConv10, wAdj20] :=
  ⟨by decide,
   c5_senate_batch_idempotent [wConv10, wAdj20] [wSched10] [wConv10, wAdj20]
     (by decide) (by decide) (by decide)⟩

/-! ## Senate text parser (`_time_from_senate_string`, `_parse_recess`,
`_parse_next_convening`, `_date_from_senate_string`)

Python regex search is modelled as a character-list scanner: try the pattern
at each start position, left to right; inside one position, quantifiers are
tried greedily with backtracking (here the only backtracking the pattern
`⟨pre⟩\s*(\d{1,2}:?\d{0,2}) ([a|p]\s*\.?m\s*\.?)` needs is the enumeration
of digit-group lengths and the optional colon).  Times are minutes past
midnight; dates are civil day numbers; the combined instant is
`day * 1440 + minutes`. -/

def isPySpace (c : Char) : Bool :=
  c == ' ' || c == '\t' || c == '\n' || c == '\r' || c.toNat == 11 || c.toNat == 12

def dropPySpaces : List Char → List Char
  | [] => []
  | c :: cs => if isPySpace c then dropPySpaces cs else c :: cs

/-- Take exactly `n` digit characters. -/
def takeDigitsN : Nat → List Char → Option (List Char × List Char)
  | 0, s => some ([], s)
  | n + 1, c :: cs =>
      if c.isDigit then (takeDigitsN n cs).map fun p => (c :: p.1, p.2)
      else none
  | _ + 1, [] => none

/-- Match the tail `" ([a|p]\s*\.?m\s*\.?)"` of the time pattern; returns the
first captured group and the meridiem class character (note the character
class `[a|p]` also admits the bar). -/
def merTail (g1 : List Char) : List Char → Option (List Char × Char)
  | ' ' :: c :: r2 =>
    if c == 'a' || c == '|' || c == 'p' then
      let r3 := dropPySpaces r2
      let r4 := match r3 with
        | '.' :: t => t
        | _ => r3
      match r4 with
      | 'm' :: _ => some (g1, c)
      | _ => none
    else none
  | _ => none

/-- One backtracking alternative for `(\d{1,2}:?\d{0,2})`: `d1` leading
digits, optionally a colon, `d2` trailing digits. -/
def timeCombo (d1 : Nat) (useColon : Bool) (d2 : Nat) (s : List Char) :
    Option (List Char × Char) :=
  match takeDigitsN d1 s with
  | none => none
  | some (g1a, r1) =>
    let mid : Option (List Char × List Char) :=
      if useColon then
        match r1 with
        | ':' :: t => some ([ ':' ], t)
        | _ => none
      else some ([], r1)
    match mid with
    | none => none
    | some (m, r2) =>
      match takeDigitsN d2 r2 with
      | none => none
      | some (g1b, r3) => merTail (g1a ++ m ++ g1b) r3

/-- The time pattern after the prefix: `\s*` then the digit group, trying the
alternatives in the order a greedy backtracking engine would. -/
def timeCore (s0 : List Char) : Option (List Char × Char) :=
  let s := dropPySpaces s0
  timeCombo 2 true 2 s <|> timeCombo 2 true 1 s <|> timeCombo 2 true 0 s <|>
  timeCombo 2 false 2 s <|> timeCombo 2 false 1 s <|> timeCombo 2 false 0 s <|>
  timeCombo 1 true 2 s <|> timeCombo 1 true 1 s <|> timeCombo 1 true 0 s <|>
  timeCombo 1 false 2 s <|> timeCombo 1 false 1 s <|> timeCombo 1 false 0 s

/-- Match a literal pattern at the head, returning the remainder. -/
def matchLit : List Char → List Char → Option (List Char)
  | [], s => some s
  | _ :: _, [] => none
  | p :: ps, c :: cs => if p == c then matchLit ps cs else none

/-- `re.search` for `⟨pre⟩` followed by the time pattern: leftmost start
position wins. -/
def reSearchTime (pre : List Char) : List Char → Option (List Char × Char)
  | [] =>
    match matchLit pre [] with
    | some r => timeCore r
    | none => none
  | c :: cs =>
    match matchLit pre (c :: cs) with
    | some r =>
      match timeCore r with
      | some res => some res
      | none => reSearchTime pre cs
    | none => reSearchTime pre cs

/-! ### `datetime.strptime(ct, "%I:%M %p")` -/

/-- `%I`: the alternation `1[0-2]|0[1-9]|[1-9]`. -/
def parseI : List Char → PyRes (Nat × List Char)
  | '1' :: c :: rest =>
      if c == '0' || c == '1' || c == '2' then .ok (10 + (c.toNat - 48), rest)
      else .ok (1, c :: rest)
  | '0' :: c :: rest =>
      if c.isDigit && c != '0' then .ok (c.toNat - 48, rest) else .exn
  | c :: rest => if c.isDigit && c != '0' then .ok (c.toNat - 48, rest) else .exn
  | [] => .exn

/-- `%M`: the alternation `[0-5]\d|\d`. -/
def parseM : List Char → PyRes (Nat × List Char)
  | c :: d :: rest =>
      if (c ≥ '0' && c ≤ '5') && d.isDigit then
        .ok ((c.toNat - 48) * 10 + (d.toNat - 48), rest)
      else if c.isDigit then .ok (c.toNat - 48, d :: rest)
      else .exn
  | [ c ] => if c.isDigit then .ok (c.toNat - 48, []) else .exn
  | [] => .exn

/-- `%p` on the lowercase meridiem the caller builds (`True` = pm); anything
else — including the `"|m"` the class `[a|p]` can produce — raises. -/
def parseMer : List Char → PyRes (Bool × List Char)
  | 'a' :: 'm' :: rest => .ok (false, rest)
  | 'p' :: 'm' :: rest => .ok (true, rest)
  | _ => .exn

/-- Full `strptime(ct, "%I:%M %p")`; the whole string must be consumed;
result is minutes past midnight. -/
def ctParse (cs : List Char) : PyRes Nat := do
  let hr ← parseI cs
  match hr.2 with
  | ':' :: r2 =>
    let mr ← parseM r2
    match mr.2 with
    | ' ' :: r4 =>
      let pr ← parseMer r4
      if pr.2.isEmpty then
        .ok ((hr.1 % 12) * 60 + mr.1 + if pr.1 then 720 else 0)
      else .exn
    | _ => .exn
  | _ => .exn

/-- `Senate._time_from_senate_string` (senate.py lines 490-525): regex-search
for `⟨pre⟩` + time; on no match fall back to noon if the text mentions it,
else return `None`; on a match rebuild `"h:mm ampm"` (appending `":00"` when
the captured group has no colon) and run it through `strptime`, whose
`ValueError` on an unparseable clock is uncaught. -/
def timeFromSenateStr (cs : List Char) (pre : List Char) : PyRes (Option Nat) :=
  match reSearchTime pre cs with
  | none =>
    if subList ("noon".toList) cs then
      (ctParse ("12:00 pm".toList)).bind fun t => .ok (some t)
    else .ok none
  | some (g1, mer) =>
    let ampm : List Char := [ mer, 'm' ]
    let ct := if g1.contains ':' then g1 ++ [ ' ' ] ++ ampm
              else g1 ++ [ ':', '0', '0', ' ' ] ++ ampm
    (ctParse ct).bind fun t => .ok (some t)

/-- Index of the first occurrence of a sublist (`re.search(pat).span()[0]`). -/
def findSubIdx (pat : List Char) : List Char → Option Nat
  | [] => if startsOf pat [] then some 0 else none
  | c :: cs =>
    if startsOf pat (c :: cs) then some 0
    else (findSubIdx pat cs).map (· + 1)

/-! ### `_date_from_senate_string` and the date regex -/

def toLowerCh (c : Char) : Char :=
  if c ≥ 'A' && c ≤ 'Z' then Char.ofNat (c.toNat + 32) else c

/-- The English month-name table; an unknown name raises `KeyError`. -/
def monthNum (mon : List Char) : PyRes Nat :=
  let m := mon.map toLowerCh
  if m == "january".toList then .ok 1
  else if m == "february".toList then .ok 2
  else if m == "march".toList then .ok 3
  else if m == "april".toList then .ok 4
  else if m == "may".toList then .ok 5
  else if m == "june".toList then .ok 6
  else if m == "july".toList then .ok 7
  else if m == "august".toList then .ok 8
  else if m == "september".toList then .ok 9
  else if m == "october".toList then .ok 10
  else if m == "november".toList then .ok 11
  else if m == "december".toList then .ok 12
  else .exn

/-- Python `int(...)` on a captured group of digit characters; the empty
string raises `ValueError`. -/
def parseNatDigits (cs : List Char) : PyRes Nat :=
  match cs with
  | [] => .exn
  | _ =>
    if cs.all (·.isDigit) then
      .ok (cs.foldl (fun acc c => acc * 10 + (c.toNat - 48)) 0)
    else .exn

def isLeap (y : Int) : Bool := (y % 4 == 0 && y % 100 != 0) || y % 400 == 0

def daysInMonth (y : Int) (m : Nat) : Nat :=
  if m == 2 then (if isLeap y then 29 else 28)
  else if m == 4 || m == 6 || m == 9 || m == 11 then 30
  else 31

/-- Civil date to day number (days since 1970-01-01, proleptic Gregorian). -/
def daysFromCivil (y : Int) (m d : Nat) : Int :=
  let y2 := if m ≤ 2 then y - 1 else y
  let era := (if y2 ≥ 0 then y2 else y2 - 399) / 400
  let yoe := y2 - era * 400
  let mp := ((m : Int) + 9) % 12
  let doy := (153 * mp + 2) / 5 + (d : Int) - 1
  let doe := yoe * 365 + yoe / 4 - yoe / 100 + doy
  era * 146097 + doe - 719468

/-- `Senate._date_from_senate_string`: month-name lookup, `int` conversions,
and `datetime(...)` range validation. -/
def dateFromSenateString (mon day year : List Char) : PyRes Int := do
  let m ← monthNum mon
  let d ← parseNatDigits day
  let y ← parseNatDigits year
  if 1 ≤ y ∧ 1 ≤ d ∧ d ≤ daysInMonth (y : Int) m then
    .ok (daysFromCivil (y : Int) m d)
  else .exn

def isWordCh (c : Char) : Bool := c.isAlpha || c.isDigit || c == '_'

def takeWhileL (p : Char → Bool) : List Char → List Char × List Char
  | [] => ([], [])
  | c :: cs =>
    if p c then
      let r := takeWhileL p cs
      (c :: r.1, r.2)
    else ([], c :: cs)

/-- The body of the date pattern
`on\s*\w*,\s*(\w*)\s*(\d*),\s*(\d{4})` after the literal `on`; every
quantifier here is greedy over a character class disjoint from what follows,
so no backtracking is needed. -/
def dateCore (s : List Char) : Option (List Char × List Char × List Char) :=
  let r1 := dropPySpaces s
  let w := takeWhileL isWordCh r1
  match w.2 with
  | ',' :: r3 =>
    let r4 := dropPySpaces r3
    let g1 := takeWhileL isWordCh r4
    let r6 := dropPySpaces g1.2
    let g2 := takeWhileL (·.isDigit) r6
    match g2.2 with
    | ',' :: r8 =>
      let r9 := dropPySpaces r8
      match takeDigitsN 4 r9 with
      | some (g3, _) => some (g1.1, g2.1, g3)
      | none => none
    | _ => none
  | _ => none

/-- `re.search` for the date pattern: leftmost `on` whose continuation
matches (which may be the `on` inside another word, e.g. `afternoon`). -/
def reSearchDate : List Char → Option (List Char × List Char × List Char)
  | [] => none
  | c :: cs =>
    match matchLit ([ 'o', 'n' ]) (c :: cs) with
    | some r =>
      match dateCore r with
      | some g => some g
      | none => reSearchDate cs
    | none => reSearchDate cs

/-- `Senate._parse_next_convening` (senate.py lines 402-451).  A missing
`until` raises `AttributeError`; a missing date match in the non-`tomorrow`
branch likewise; combining a date with a `None` time raises `TypeError`. -/
def parseNextConvening (txt : List Char) (baseDate : Int) (srcUrl : String) :
    PyRes (Option Event) :=
  match findSubIdx ("until".toList) txt with
  | none => .exn
  | some i =>
    let conveningText := txt.drop i
    (timeFromSenateStr conveningText ("until".toList)).bind fun ct =>
    if subList ("tomorrow".toList) conveningText then
      match ct with
      | none => .exn
      | some t =>
        .ok (some { etype := some (.k CONVENE_SCHEDULED),
                    timestamp := (baseDate + 1) * 1440 + (t : Int),
                    description := txt.asString, source := some "XML",
                    srcUrl := some srcUrl })
    else
      match reSearchDate conveningText with
      | none => .exn
      | some g =>
        (dateFromSenateString g.1 g.2.1 g.2.2).bind fun d =>
        match ct with
        | none => .exn
        | some t =>
          .ok (some { etype := some (.k CONVENE_SCHEDULED),
                      timestamp := d * 1440 + (t : Int),
                      description := txt.asString, source := some "XML",
                      srcUrl := some srcUrl })

/-- `Senate._parse_recess` (senate.py lines 371-400).  The recess event's
`'type'` is set to `chambers.const.RECESS` — the *tuple*
`(RECESS_TIME, RECESS_COC)` — not to the kind `RECESS_TIME`. -/
def parseRecess (recessText : String) (baseDate : Int) (srcUrl : String) :
    PyRes (List Event) :=
  let txt := recessText.toList.filter (fun c => c != '\n')
  (timeFromSenateStr txt ("at".toList)).bind fun rt =>
  match rt with
  | none => .exn
  | some t =>
    let recessEvent : Event :=
      { etype := some (.grp RECESS), timestamp := baseDate * 1440 + (t : Int),
        description := txt.asString, source := some "XML",
        srcUrl := some srcUrl }
    (parseNextConvening txt baseDate srcUrl).bind fun conv =>
    .ok (match conv with
         | some ce => [recessEvent, ce]
         | none => [recessEvent])

/-! ### C6: the recess event's kind -/

def c6Text : String := "The Senate recessed at 6:30 p.m. until 10:00 a.m. tomorrow."

def c6Recess : Event :=
  { etype := some (.grp RECESS), timestamp := 1000 * 1440 + 1110,
    description := c6Text, source := some "XML",
    srcUrl := some "senate.gov" }

def c6Sched : Event :=
  { etype := some (.k CONVENE_SCHEDULED), timestamp := 1001 * 1440 + 600,
    description := c6Text, source := some "XML",
    srcUrl := some "senate.gov" }

/-- C6 (code bug).  On a recess section reading
`"… recessed at 6:30 p.m. until 10:00 a.m. tomorrow."` over base day 1000,
the parser emits the recess event at the correct combined instant
(day 1000, 18:30) but with `'type'` equal to the tuple
`const.RECESS = (RECESS_TIME, RECESS_COC)` rather than the kind
`RECESS_TIME`; as a consequence the event also never matches any event
search (an int-tuple is not `in` a tuple of ints). -/
theorem c6_recess_event_group_type :
    parseRecess c6Text 1000 "senate.gov" = .ok [c6Recess, c6Sched]
      ∧ c6Recess.etype = some (.grp [RECESS_TIME, RECESS_COC])
      ∧ c6Recess.etype ≠ some (.k RECESS_TIME)
      ∧ c6Recess.timestamp = 1000 * 1440 + (18 * 60 + 30)
      ∧ searchEvents [c6Recess] 2000000 false ALL_EVENTS = none := by
  refine ⟨by decide, by decide, by decide, by decide, by decide⟩

/-! ## Senate schedule record (`Senate._load_json`, senate.py lines 151-193) -/

def floorScheduleUrl : String :=
  "https://www.senate.gov/legislative/schedule/floor_schedule.json"

/-- Python `convened != self._convened` where `convened` is a `bool` and
`self._convened` holds whatever the attribute was last assigned: a `bool`
never equals `None`. -/
def pyNeBoolOpt (b : Bool) (o : Option Bool) : Bool :=
  match o with
  | none => true
  | some b2 => b != b2

/-- The event dict `_load_json` builds. -/
def jsonEvent (ct : Int) (ty : Int) : Event :=
  { etype := some (.k ty), timestamp := ct,
    description := "Event from Floor Activity JSON",
    source := some "JSON", srcUrl := some floorScheduleUrl }

/-- `Senate._load_json` after the fetch: compose the convene instant `ct`,
classify it against `now` (equality raises the `ValueError` "impossible
state"), and merge the event exactly when the implied boolean differs from
the `self._convened` attribute.  Returns the new log and the count the
method reports. -/
def senateLoadJson (evs : List Event) (selfConvenedAttr : Option Bool)
    (ct now : Int) : PyRes (List Event × Nat) :=
  if ct < now then
    if pyNeBoolOpt true selfConvenedAttr then
      (senateAdd evs (jsonEvent ct CONVENE)).bind fun l => .ok (l, 1)
    else .ok (evs, 0)
  else if ct > now then
    if pyNeBoolOpt false selfConvenedAttr then
      (senateAdd evs (jsonEvent ct CONVENE_SCHEDULED)).bind fun l => .ok (l, 1)
    else .ok (evs, 0)
  else .exn

/-- `Chamber.__init__` sets `self._convened = None` (chamber.py line 45), and
no statement in the `chambers` package ever reassigns it, so the attribute
read by `_load_json` is always `None`. -/
def chamberInitConvenedAttr : Option Bool := none

/-- `_load_json` as it actually runs, with the attribute at its permanent
value. -/
def senateLoadJsonAsRun (evs : List Event) (ct now : Int) :
    PyRes (List Event × Nat) :=
  senateLoadJson evs chamberInitConvenedAttr ct now

/-- Failing inputs for C8: a log already containing a `CONVENE`, so the
derived state equals the state the record implies. -/
def c8Conv : Event := { etype := some (.k CONVENE), timestamp := 100 }
def c8Adj : Event := { etype := some (.k ADJOURN), timestamp := 100 }

/-- C8 (code bug).  With the log `[CONVENE @ 100]`, `ct = 200`, `now = 300`
the record implies convened (`ct < now`) and the derived state is already
`TRUE` — the claim says the event must not be merged — yet `_load_json`
merges it (and reports one event), because its guard compares the implied
boolean against `self._convened`, which is `None` from `__init__` and never
reassigned, not against the derived `convened` property.  The symmetric
not-convened case merges too. -/
theorem c8_schedule_event_always_merged :
    convened [c8Conv] 300 = .t
      ∧ senateLoadJsonAsRun [c8Conv] 200 300
          = .ok ([c8Conv, jsonEvent 200 CONVENE], 1)
      ∧ convened [c8Adj] 300 = .f
      ∧ senateLoadJsonAsRun [c8Adj] 400 300
          = .ok ([c8Adj, jsonEvent 400 CONVENE_SCHEDULED], 1) := by
  refine ⟨by decide, by decide, by decide, by decide⟩

/-! ## Cache write (`Chamber.save_cache`, chamber.py lines 270-291)

The write sequence is modelled as three filesystem steps over the two paths
`<cache>` and `<cache>.new`: (0) serialize the snapshot into `<cache>.new`,
(1) `os.remove(<cache>)` (a missing file is ignored), (2)
`os.rename(<cache>.new, <cache>)`.  `saveCacheCrash k` is the state after
the first `k` completed steps — i.e. a crash between step `k` and step
`k+1`. -/

structure CacheFs where
  cacheFile : Option Int
  newFile : Option Int
deriving DecidableEq, Repr

def saveCacheStep (snap : Int) (fs : CacheFs) : Nat → CacheFs
  | 0 => { fs with newFile := some snap }
  | 1 => { fs with cacheFile := none }
  | _ => { cacheFile := fs.newFile, newFile := none }

def saveCacheCrash (snap : Int) (fs : CacheFs) : Nat → CacheFs
  | 0 => fs
  | n + 1 => saveCacheStep snap (saveCacheCrash snap fs n) n

/-- C9 counterexample.  Old cache contents `1`, new snapshot `2`: a crash
after step 1 (the `os.remove` of the old cache, before the rename) leaves
*no* file at the cache path — neither the old nor the new contents — so the
write sequence is not atomic at the cache path as claimed. -/
theorem c9_counterexample_cache_gap :
    ¬ ((saveCacheCrash 2 { cacheFile := some 1, newFile := none } 2).cacheFile
          = some 1
        ∨ (saveCacheCrash 2 { cacheFile := some 1, newFile := none } 2).cacheFile
            = some 2) := by
  decide

/-- C9 as amended.  `save_cache` serializes into `<cache>.new`, then
*removes* the old cache file, then renames `<cache>.new` over `<cache>`.
A crash before the remove leaves the old cache intact and a crash after the
rename leaves the new one, but in the window between remove and rename the
cache path holds no file at all (the snapshot survives only at
`<cache>.new`), so the writer is not atomic with respect to the cache
path. -/
theorem c9_cache_write_sequence (old nf : Option Int) (snap : Int) :
    (saveCacheCrash snap { cacheFile := old, newFile := nf } 0).cacheFile = old
      ∧ (saveCacheCrash snap { cacheFile := old, newFile := nf } 1).cacheFile = old
      ∧ (saveCacheCrash snap { cacheFile := old, newFile := nf } 2).cacheFile = none
      ∧ (saveCacheCrash snap { cacheFile := old, newFile := nf } 2).newFile = some snap
      ∧ (saveCacheCrash snap { cacheFile := old, newFile := nf } 3).cacheFile = some snap
      ∧ (saveCacheCrash snap { cacheFile := old, newFile := nf } 3).newFile = none := by
  refine ⟨rfl, rfl, rfl, rfl, rfl, rfl⟩

/-! ## Senate construction (C10)

`Senate.__init__` (senate.py lines 25-37) executes
`super().__init__("Senate", load_cache, tz, parent_logger, log_level)` —
five positional arguments — while `Chamber.__init__` (chamber.py line 20)
is `def __init__(self, name, parent_logger=None, log_level=logging.WARNING)`
and so binds at most three positional arguments besides `self`.  CPython
binds arguments before executing the callee's body, so the call raises
`TypeError` before any attribute of the object is assigned. -/

/-- An argument value passed positionally (its value is irrelevant to
binding). -/
inductive PyArg where
  | str (s : String)
  | boolean (b : Bool)
  | other
deriving DecidableEq, Repr

/-- Maximum number of caller-supplied positional arguments
`Chamber.__init__` accepts (`name`, `parent_logger`, `log_level`). -/
def chamberInitMaxPositional : Nat := 3

/-- Outcome of a constructor call: an initialized chamber state (name bound,
empty log) or a `TypeError` raised during argument binding, before any state
exists. -/
inductive CtorResult where
  | initialized (name : String) (events : List Event)
  | raisedTypeError
deriving DecidableEq, Repr

/-- CPython positional binding for `Chamber.__init__`: at least the required
`name`, at most `chamberInitMaxPositional` arguments. -/
def chamberInitBind (args : List PyArg) : CtorResult :=
  if args.length ≤ chamberInitMaxPositional then
    match args with
    | .str n :: _ => .initialized n []
    | _ => .raisedTypeError
  else .raisedTypeError

/-- The `super().__init__` call `Senate.__init__` makes, with the caller's
own parameters forwarded. -/
def senateInit (loadCache : Bool) (tz : String) : CtorResult :=
  chamberInitBind
    [ .str "Senate", .boolean loadCache, .str tz, .other, .other ]

/-- C10.  Whatever arguments `Senate(...)` is given, the forwarded
`super().__init__` call passes five positional arguments to a signature
accepting at most three, so construction raises `TypeError` with no state
initialized. -/
theorem c10_senate_init_type_error (loadCache : Bool) (tz : String) :
    senateInit loadCache tz = .raisedTypeError
      ∧ chamberInitMaxPositional = 3
      ∧ [ PyArg.str "Senate", .boolean loadCache, .str tz, .other,
          .other ].length = 5 := by
  refine ⟨rfl, rfl, rfl⟩

end Chambers
